import Mathlib

/-!
Verification of the subtitle segmentation, timing, formatting and
transliteration pipeline of the video-subtitle-app repository.

The TypeScript sources are shallowly embedded: JS numbers become `ℚ`
(the claims are about exact arithmetic; `Math.round`/`Math.floor`/`%`
are modelled explicitly), JS strings become `List Char`, and the JS
regex operations used by the SRT codec are modelled by explicit
leftmost-match scanners equivalent to the fixed patterns in the source.
-/

/-- JS `Math.round` (round half toward plus infinity). -/
def jsRound (q : ℚ) : ℤ := ⌊q + 1/2⌋

/-- `Math.round(q * 1000) / 1000` as in `optimizeSubtitles`. -/
def round3 (q : ℚ) : ℚ := (jsRound (q * 1000) : ℚ) / 1000

/-- Truncation toward zero, as used by the JS `%` operator. -/
def ratTrunc (q : ℚ) : ℤ := if 0 ≤ q then ⌊q⌋ else ⌈q⌉

/-- JS `%` (fmod: remainder with the sign of the dividend). -/
def jsMod (a b : ℚ) : ℚ := a - b * (ratTrunc (a / b) : ℚ)

/-- Characters of a string literal, the `List Char` view of a JS string. -/
def str (s : String) : List Char := s.data

/-- The `Subtitle` interface of `types.ts`: id, start/end time in seconds,
text, and the optional pre-transliteration text. -/
structure Subtitle where
  id : ℤ
  startTime : ℚ
  endTime : ℚ
  text : List Char
  originalText : Option (List Char)
deriving DecidableEq, Repr

/-- Association-list lookup, modelling access to a JS object used as a map. -/
def assocFind {α β : Type} [DecidableEq α] : List (α × β) → α → Option β
  | [], _ => none
  | (k, v) :: rest, a => if a = k then some v else assocFind rest a

/-- The two-character (digraph) entries of `latinToCyrillicMap`. -/
def l2cDigraphs : List ((Char × Char) × Char) :=
  [(('L', 'j'), 'Љ'), (('L', 'J'), 'Љ'), (('l', 'j'), 'љ'),
   (('N', 'j'), 'Њ'), (('N', 'J'), 'Њ'), (('n', 'j'), 'њ'),
   (('D', 'ž'), 'Џ'), (('D', 'Ž'), 'Џ'), (('d', 'ž'), 'џ'),
   (('D', 'z'), 'Џ'), (('D', 'Z'), 'Џ'), (('d', 'z'), 'џ'),
   (('D', 'J'), 'Ђ'), (('D', 'j'), 'Ђ'), (('d', 'j'), 'ђ')]

/-- The single-character entries of `latinToCyrillicMap`. -/
def l2cSingles : List (Char × Char) :=
  [('Đ', 'Ђ'), ('đ', 'ђ'),
   ('A', 'А'), ('B', 'Б'), ('V', 'В'), ('G', 'Г'), ('D', 'Д'),
   ('E', 'Е'), ('Ž', 'Ж'), ('Z', 'З'), ('I', 'И'), ('J', 'Ј'),
   ('K', 'К'), ('L', 'Л'), ('M', 'М'), ('N', 'Н'), ('O', 'О'),
   ('P', 'П'), ('R', 'Р'), ('S', 'С'), ('T', 'Т'), ('Ć', 'Ћ'),
   ('U', 'У'), ('F', 'Ф'), ('H', 'Х'), ('C', 'Ц'), ('Č', 'Ч'), ('Š', 'Ш'),
   ('a', 'а'), ('b', 'б'), ('v', 'в'), ('g', 'г'), ('d', 'д'),
   ('e', 'е'), ('ž', 'ж'), ('z', 'з'), ('i', 'и'), ('j', 'ј'),
   ('k', 'к'), ('l', 'л'), ('m', 'м'), ('n', 'н'), ('o', 'о'),
   ('p', 'п'), ('r', 'р'), ('s', 'с'), ('t', 'т'), ('ć', 'ћ'),
   ('u', 'у'), ('f', 'ф'), ('h', 'х'), ('c', 'ц'), ('č', 'ч'), ('š', 'ш')]

/-- The `cyrillicToLatinMap` table of `cyrillicToLatin`. -/
def c2lSingles : List (Char × List Char) :=
  [('А', ['A']), ('Б', ['B']), ('В', ['V']), ('Г', ['G']), ('Д', ['D']),
   ('Ђ', ['Đ']), ('Е', ['E']), ('Ж', ['Ž']), ('З', ['Z']), ('И', ['I']),
   ('Ј', ['J']), ('К', ['K']), ('Л', ['L']), ('Љ', ['L', 'j']), ('М', ['M']),
   ('Н', ['N']), ('Њ', ['N', 'j']), ('О', ['O']), ('П', ['P']), ('Р', ['R']),
   ('С', ['S']), ('Т', ['T']), ('Ћ', ['Ć']), ('У', ['U']), ('Ф', ['F']),
   ('Х', ['H']), ('Ц', ['C']), ('Ч', ['Č']), ('Џ', ['D', 'ž']), ('Ш', ['Š']),
   ('а', ['a']), ('б', ['b']), ('в', ['v']), ('г', ['g']), ('д', ['d']),
   ('ђ', ['đ']), ('е', ['e']), ('ж', ['ž']), ('з', ['z']), ('и', ['i']),
   ('ј', ['j']), ('к', ['k']), ('л', ['l']), ('љ', ['l', 'j']), ('м', ['m']),
   ('н', ['n']), ('њ', ['n', 'j']), ('о', ['o']), ('п', ['p']), ('р', ['r']),
   ('с', ['s']), ('т', ['t']), ('ћ', ['ć']), ('у', ['u']), ('ф', ['f']),
   ('х', ['h']), ('ц', ['c']), ('ч', ['č']), ('џ', ['d', 'ž']), ('ш', ['š'])]

/-- `latinToCyrillic` of `latinToCyrillic.ts`: at each position a
two-character digraph is tried first, then the single character, else
the character is copied. -/
def latinToCyrillic : List Char → List Char
  | [] => []
  | [c] =>
    match assocFind l2cSingles c with
    | some y => [y]
    | none => [c]
  | a :: b :: rest =>
    match assocFind l2cDigraphs (a, b) with
    | some y => y :: latinToCyrillic rest
    | none =>
      match assocFind l2cSingles a with
      | some y => y :: latinToCyrillic (b :: rest)
      | none => a :: latinToCyrillic (b :: rest)

/-- One character of `cyrillicToLatin`: mapped expansion or the
character itself. -/
def c2lChar (c : Char) : List Char :=
  match assocFind c2lSingles c with
  | some s => s
  | none => [c]

/-- `cyrillicToLatin` of `latinToCyrillic.ts` (per-character map). -/
def cyrillicToLatin : List Char → List Char
  | [] => []
  | c :: rest => c2lChar c ++ cyrillicToLatin rest

/-- `isCyrillic`: more characters in U+0400..U+04FF than ASCII letters. -/
def isCyrillic (l : List Char) : Bool :=
  decide (l.countP (fun c => decide (('a' ≤ c ∧ c ≤ 'z') ∨ ('A' ≤ c ∧ c ≤ 'Z'))) <
    l.countP (fun c => decide (0x400 ≤ c.toNat ∧ c.toNat ≤ 0x4FF)))

/-- `ensureCyrillic`: convert only when not detected as Cyrillic. -/
def ensureCyrillic (l : List Char) : List Char :=
  if isCyrillic l then l else latinToCyrillic l

/-- A digraph key whose Cyrillic image maps back to a different Latin
spelling (these break the round trip). -/
def badPairB (a b : Char) : Bool :=
  match assocFind l2cDigraphs (a, b) with
  | some y => decide (c2lChar y ≠ [a, b])
  | none => false

/-- The whitespace class of the JS `\s` regex escape (also used by
`String.prototype.trim`). -/
def isJsSpace (c : Char) : Bool :=
  decide (c = ' ' ∨ c = '\t' ∨ c = '\n' ∨ c = '\r' ∨ c.toNat = 11 ∨ c.toNat = 12 ∨
    c.toNat = 0xa0 ∨ c.toNat = 0x1680 ∨ (0x2000 ≤ c.toNat ∧ c.toNat ≤ 0x200a) ∨
    c.toNat = 0x2028 ∨ c.toNat = 0x2029 ∨ c.toNat = 0x202f ∨ c.toNat = 0x205f ∨
    c.toNat = 0x3000 ∨ c.toNat = 0xfeff)

/-- Worker of `replace(/\s+/g, ' ')`; the flag records whether the scan
is inside a whitespace run whose single replacement space was already
emitted. -/
def collapseWsAux : Bool → List Char → List Char
  | _, [] => []
  | inRun, c :: rest =>
    if isJsSpace c then
      if inRun then collapseWsAux true rest
      else ' ' :: collapseWsAux true rest
    else c :: collapseWsAux false rest

/-- `replace(/\s+/g, ' ')`: collapse each maximal whitespace run to one
space. -/
def collapseWs (l : List Char) : List Char := collapseWsAux false l

/-- `String.prototype.trim`. -/
def jsTrim (l : List Char) : List Char :=
  ((l.dropWhile isJsSpace).reverse.dropWhile isJsSpace).reverse

/-- The text normalization of `segmentText`:
`text.replace(/\n/g, ' ').replace(/\s+/g, ' ').trim()`. -/
def cleanText (text : List Char) : List Char :=
  jsTrim (collapseWs (text.map (fun c => if c = '\n' then ' ' else c)))

/-- Worker of `split(/\s+/)`; the flag records whether the scan is
inside a separator run (whose token was already emitted). -/
def splitWsAux : Bool → List Char → List Char → List (List Char)
  | _, [], acc => [acc.reverse]
  | sep, c :: rest, acc =>
    if isJsSpace c then
      if sep then splitWsAux true rest []
      else acc.reverse :: splitWsAux true rest []
    else splitWsAux false rest (c :: acc)

/-- JS `split(/\s+/)` (on the empty string it yields one empty token). -/
def jsSplitWs (l : List Char) : List (List Char) := splitWsAux false l []

/-- Loop state of the multi-line branch of `segmentText`. -/
structure SegState where
  segments : List (List Char)
  currentSegment : List (List Char)
  currentLine : List Char
  lineCount : ℤ
deriving Repr

/-- One iteration of the word loop of `segmentText` (multi-line mode). -/
def segStep (maxCharsPerLine maxLines : ℤ) (st : SegState) (word : List Char) :
    SegState :=
  let testLine := if st.currentLine = [] then word else st.currentLine ++ ' ' :: word
  if (testLine.length : ℤ) ≤ maxCharsPerLine then
    { st with currentLine := testLine }
  else
    let st1 :=
      if st.currentLine = [] then st
      else { st with currentSegment := st.currentSegment ++ [st.currentLine],
                     lineCount := st.lineCount + 1 }
    let st2 :=
      if st1.lineCount ≥ maxLines then
        { st1 with segments := st1.segments ++ [List.intercalate ['\n'] st1.currentSegment],
                   currentSegment := [], lineCount := 0 }
      else st1
    { st2 with currentLine := word }

/-- `segmentTextSingleLine`: one-line segments, no newlines ever produced. -/
def segmentTextSingleLine (words : List (List Char)) (maxCharsPerLine : ℤ) :
    List (List Char) :=
  let fin := words.foldl
    (fun (st : List (List Char) × List Char) word =>
      let testLine := if st.2 = [] then word else st.2 ++ ' ' :: word
      if (testLine.length : ℤ) ≤ maxCharsPerLine then (st.1, testLine)
      else (if st.2 = [] then st.1 else st.1 ++ [st.2], word))
    ([], [])
  let segments := if fin.2 = [] then fin.1 else fin.1 ++ [fin.2]
  if segments = [] then [[]] else segments

/-- `segmentText` of `SubtitleService`: normalize, split into words,
then the greedy line/segment packing; whitespace-only text falls back
to the original text. -/
def segmentText (text : List Char) (maxCharsPerLine maxLines : ℤ) :
    List (List Char) :=
  let words := jsSplitWs (cleanText text)
  if maxLines = 1 then segmentTextSingleLine words maxCharsPerLine
  else
    let st := words.foldl (segStep maxCharsPerLine maxLines)
      ⟨[], [], [], 0⟩
    let st1 :=
      if st.currentLine = [] then st
      else { st with currentSegment := st.currentSegment ++ [st.currentLine] }
    let segments :=
      if st1.currentSegment = [] then st1.segments
      else st1.segments ++ [List.intercalate ['\n'] st1.currentSegment]
    if segments = [] then [text] else segments

/-- One element of the `map` inside `adjustTiming`; `nextStart` is
`subtitles[index+1].startTime` of the original array when it exists. -/
def adjustOne (sub : Subtitle) (nextStart : Option ℚ) : Subtitle :=
  let s := sub.startTime
  let e0 := sub.endTime
  let e1 := if e0 - s < 1 then s + 1 else e0
  let e2 := if e1 - s > 5 then s + 5 else e1
  let e3 :=
    match nextStart with
    | some ns => if e2 > ns - 1/10 then ns - 1/10 else e2
    | none => e2
  { sub with startTime := max 0 s, endTime := max (s + 1/2) e3 }

/-- `adjustTiming` of `SubtitleService`. -/
def adjustTiming : List Subtitle → List Subtitle
  | [] => []
  | [sub] => [adjustOne sub none]
  | sub :: next :: rest =>
    adjustOne sub (some next.startTime) :: adjustTiming (next :: rest)

/-- The cue-assembly loop body of `optimizeSubtitles`: segment `k` of a
subtitle starting at unrounded time `s + k * d`. -/
def buildCues (idStart : ℤ) (s d : ℚ) : List (List Char) → ℕ → List Subtitle
  | [], _ => []
  | text :: rest, k =>
    { id := idStart + k, startTime := round3 (s + k * d),
      endTime := round3 (s + k * d + d), text := text, originalText := none } ::
      buildCues idStart s d rest (k + 1)

/-- The `optimized` list built by `optimizeSubtitles` before
`adjustTiming`, with `idCounter` threaded through. -/
def optimizeRaw (maxCharsPerLine maxLines : ℤ) : List Subtitle → ℤ → List Subtitle
  | [], _ => []
  | sub :: rest, idCounter =>
    let segments := segmentText sub.text maxCharsPerLine maxLines
    let segmentDuration := (sub.endTime - sub.startTime) / (segments.length : ℚ)
    buildCues idCounter sub.startTime segmentDuration segments 0 ++
      optimizeRaw maxCharsPerLine maxLines rest (idCounter + segments.length)

/-- `optimizeSubtitles` of `SubtitleService`. -/
def optimizeSubtitles (subs : List Subtitle) (maxCharsPerLine maxLines : ℤ) :
    List Subtitle :=
  adjustTiming (optimizeRaw maxCharsPerLine maxLines subs 1)

/-- `adjustTiming` restated from the specification text of claim C4:
duration clamped into [1, 5] moving only the end, end clipped to
`next.start - 0.1` when it infringes the 0.1s gap, start clamped to 0,
and the end floor `start + 0.5` applied with the cue's original start. -/
def adjustOneSpec (sub : Subtitle) (nextStart : Option ℚ) : Subtitle :=
  let clamped := sub.startTime + min 5 (max 1 (sub.endTime - sub.startTime))
  let clipped :=
    match nextStart with
    | some ns => min (ns - 1/10) clamped
    | none => clamped
  { sub with startTime := max 0 sub.startTime,
             endTime := max (sub.startTime + 1/2) clipped }

/-- Specification-style restatement of the whole pass of `adjustTiming`:
each cue is rewritten independently from itself and the original start
of its successor. -/
def adjustTimingSpec (subs : List Subtitle) : List Subtitle :=
  subs.zipWith adjustOneSpec
    ((subs.tail.map (fun sub => some sub.startTime)) ++ [none])

/-- A word-level timestamp of the speech recognizer (spec `Word`). -/
structure SpeechWord where
  text : List Char
  startOffset : ℚ
  endOffset : ℚ
deriving DecidableEq, Repr

/-- A raw segment produced by the Segmenter (spec `RawSegment`). -/
structure RawSegment where
  startOffset : ℚ
  endOffset : ℚ
  text : List Char
deriving DecidableEq, Repr

/-- Modelled from the spec: the Segmenter component (`segment(words)`,
spec §4.1) is not present under `src/` (its implementation lives in the
speech-to-text service, which is out of the provided sources); this is
the close-current-segment test, checked before appending the triggering
word: (a) word count reached 8, (b) accumulated duration exceeds 4.0s,
(c) gap from the previous word exceeds 0.7s, (d) previous word ends in
sentence punctuation. -/
def shouldClose (cur : List SpeechWord) (w : SpeechWord) : Prop :=
  cur ≠ [] ∧
  (8 ≤ cur.length ∨
   4 < ((cur.getLast?.map SpeechWord.endOffset).getD 0) -
         ((cur.head?.map SpeechWord.startOffset).getD 0) ∨
   7/10 < w.startOffset - ((cur.getLast?.map SpeechWord.endOffset).getD 0) ∨
   (((cur.getLast?.map SpeechWord.text).getD []).getLast?.getD ' ') ∈
     ['.', ',', ';', ':', '!', '?'])

instance (cur : List SpeechWord) (w : SpeechWord) : Decidable (shouldClose cur w) :=
  inferInstanceAs (Decidable (cur ≠ [] ∧
    (8 ≤ cur.length ∨
     4 < ((cur.getLast?.map SpeechWord.endOffset).getD 0) -
           ((cur.head?.map SpeechWord.startOffset).getD 0) ∨
     7/10 < w.startOffset - ((cur.getLast?.map SpeechWord.endOffset).getD 0) ∨
     (((cur.getLast?.map SpeechWord.text).getD []).getLast?.getD ' ') ∈
       ['.', ',', ';', ':', '!', '?'])))

/-- Modelled from the spec: a closed segment takes the first word's
start, the last word's end, and the space-joined texts. -/
def mkRawSegment (cur : List SpeechWord) : RawSegment :=
  { startOffset := (cur.head?.map SpeechWord.startOffset).getD 0,
    endOffset := (cur.getLast?.map SpeechWord.endOffset).getD 0,
    text := List.intercalate [' '] (cur.map SpeechWord.text) }

/-- Modelled from the spec: the accumulate/flush loop of `segment(words)`
(spec §4.1): emit the current segment when `shouldClose` fires, flush
the remainder at the end. -/
def segmentWordsAux : List SpeechWord → List SpeechWord → List RawSegment
  | [], cur => if cur = [] then [] else [mkRawSegment cur]
  | w :: rest, cur =>
    if shouldClose cur w then mkRawSegment cur :: segmentWordsAux rest [w]
    else segmentWordsAux rest (cur ++ [w])

/-- Modelled from the spec: `segment(words)` accumulation pass, before
the post-pass. -/
def segmentWords (words : List SpeechWord) : List RawSegment :=
  segmentWordsAux words []

/-- Modelled from the spec: the §4.1 post-pass — a segment under 1.0s is
extended to 1.0s, clipped to the next segment's start; the last segment
is extended unclipped. -/
def segPost : List RawSegment → List RawSegment
  | [] => []
  | [s] =>
    [if s.endOffset - s.startOffset < 1 then
      { s with endOffset := s.startOffset + 1 } else s]
  | s :: t :: rest =>
    (if s.endOffset - s.startOffset < 1 then
      { s with endOffset := min (s.startOffset + 1) t.startOffset } else s) ::
      segPost (t :: rest)

/-- Modelled from the spec: the full Segmenter `segment(words)` of §4.1,
accumulation followed by the post-pass. -/
def segmentFull (words : List SpeechWord) : List RawSegment :=
  segPost (segmentWords words)

/-- Decimal digits of a natural number, as JS `Number.prototype.toString`
prints a nonnegative integer. -/
def natToChars (n : ℕ) : List Char :=
  if h : n < 10 then [Nat.digitChar n]
  else natToChars (n / 10) ++ [Nat.digitChar (n % 10)]
decreasing_by exact Nat.div_lt_self (by omega) (by omega)

/-- JS template-literal rendering of an integer. -/
def intToChars (i : ℤ) : List Char :=
  if i < 0 then '-' :: natToChars i.natAbs else natToChars i.natAbs

/-- `String.prototype.padStart(n, '0')`. -/
def padZeros (n : ℕ) (l : List Char) : List Char :=
  List.replicate (n - l.length) '0' ++ l

/-- `secondsToSrtTime` of `srtParser.ts` (`HH:MM:SS,mmm`). -/
def secondsToSrtTime (totalSeconds : ℚ) : List Char :=
  let hours : ℤ := ⌊totalSeconds / 3600⌋
  let minutes : ℤ := ⌊jsMod totalSeconds 3600 / 60⌋
  let seconds : ℤ := ⌊jsMod totalSeconds 60⌋
  let milliseconds : ℤ := jsRound (jsMod totalSeconds 1 * 1000)
  padZeros 2 (intToChars hours) ++ ':' ::
    (padZeros 2 (intToChars minutes) ++ ':' ::
      (padZeros 2 (intToChars seconds) ++ ',' :: padZeros 3 (intToChars milliseconds)))

/-- Numeric value of a digit character. -/
def dval (c : Char) : ℕ := c.toNat - '0'.toNat

/-- Match of the timecode regex `(\d{2}):(\d{2}):(\d{2})[,.](\d{3})` at
the head of the input; returns components and the rest. -/
def timeAtR : List Char → Option ((ℕ × ℕ × ℕ × ℕ) × List Char)
  | h1 :: h2 :: c1 :: m1 :: m2 :: c2 :: s1 :: s2 :: sep :: d1 :: d2 :: d3 :: rest =>
    if h1.isDigit ∧ h2.isDigit ∧ c1 = ':' ∧ m1.isDigit ∧ m2.isDigit ∧ c2 = ':' ∧
        s1.isDigit ∧ s2.isDigit ∧ (sep = ',' ∨ sep = '.') ∧
        d1.isDigit ∧ d2.isDigit ∧ d3.isDigit then
      some ((dval h1 * 10 + dval h2, dval m1 * 10 + dval m2,
             dval s1 * 10 + dval s2, dval d1 * 100 + dval d2 * 10 + dval d3), rest)
    else none
  | _ => none

/-- Leftmost match of the timecode regex (JS `String.prototype.match`). -/
def findTime : List Char → Option (ℕ × ℕ × ℕ × ℕ)
  | [] => none
  | c :: rest =>
    match timeAtR (c :: rest) with
    | some (r, _) => some r
    | none => findTime rest

/-- Seconds denoted by matched timecode components. -/
def timeVal : ℕ × ℕ × ℕ × ℕ → ℚ
  | (h, m, s, ms) => h * 3600 + m * 60 + s + (ms : ℚ) / 1000

/-- `srtTimeToSeconds` of `srtParser.ts` (0 when the regex fails). -/
def srtTimeToSeconds (l : List Char) : ℚ :=
  match findTime l with
  | some r => timeVal r
  | none => 0

/-- Match of the cue-timing line regex
`(\d{2}:\d{2}:\d{2}[,.]\d{3})\s*-->\s*(\d{2}:\d{2}:\d{2}[,.]\d{3})` at
the head of the input. -/
def timeLineAt (l : List Char) : Option ((ℕ × ℕ × ℕ × ℕ) × (ℕ × ℕ × ℕ × ℕ)) :=
  match timeAtR l with
  | none => none
  | some (t1, r1) =>
    match r1.dropWhile isJsSpace with
    | '-' :: '-' :: '>' :: r3 =>
      match timeAtR (r3.dropWhile isJsSpace) with
      | some (t2, _) => some (t1, t2)
      | none => none
    | _ => none

/-- Leftmost match of the cue-timing line regex. -/
def findTimeLine : List Char → Option ((ℕ × ℕ × ℕ × ℕ) × (ℕ × ℕ × ℕ × ℕ))
  | [] => none
  | c :: rest =>
    match timeLineAt (c :: rest) with
    | some r => some r
    | none => findTimeLine rest

/-- Digit scan of JS `parseInt`: value of the leading digit run. -/
def jsParseIntCore (l1 : List Char) : Option ℕ :=
  let ds := l1.takeWhile Char.isDigit
  if ds = [] then none else some (ds.foldl (fun acc c => acc * 10 + dval c) 0)

/-- JS `parseInt(s, 10)`: skip leading whitespace, optional sign, then
leading digits; `none` models `NaN`. -/
def jsParseInt (l : List Char) : Option ℤ :=
  let l1 := l.dropWhile isJsSpace
  if l1.head? = some '-' then (jsParseIntCore l1.tail).map (fun n => -(n : ℤ))
  else if l1.head? = some '+' then (jsParseIntCore l1.tail).map (fun n => (n : ℤ))
  else (jsParseIntCore l1).map (fun n => (n : ℤ))

/-- Worker of `split(/\n\n+/)`; the flag records whether the scan is
inside a newline run of length at least two (the separator match). -/
def splitBlocksAux : Bool → List Char → List Char → List (List Char)
  | _, [], acc => [acc.reverse]
  | inRun, '\n' :: '\n' :: rest, acc =>
    if inRun then splitBlocksAux true ('\n' :: rest) acc
    else acc.reverse :: splitBlocksAux true rest []
  | inRun, '\n' :: rest, acc =>
    if inRun then splitBlocksAux true rest acc
    else splitBlocksAux false rest ('\n' :: acc)
  | _, c :: rest, acc => splitBlocksAux false rest (c :: acc)

/-- `split(/\n\n+/)`: split on maximal runs of two or more newlines. -/
def splitBlocks (l : List Char) : List (List Char) := splitBlocksAux false l []

/-- Worker of `split('\n')`. -/
def splitLinesAux : List Char → List Char → List (List Char)
  | [], acc => [acc.reverse]
  | '\n' :: rest, acc => acc.reverse :: splitLinesAux rest []
  | c :: rest, acc => splitLinesAux rest (c :: acc)

/-- JS `split('\n')`. -/
def splitLines (l : List Char) : List (List Char) := splitLinesAux l []

/-- `replace(/\r\n/g, '\n').replace(/\r/g, '\n')` of `parseSRT`. -/
def normEol : List Char → List Char
  | [] => []
  | '\r' :: '\n' :: rest => '\n' :: normEol rest
  | '\r' :: rest => '\n' :: normEol rest
  | c :: rest => c :: normEol rest

/-- One block of `parseSRT`: at least three nonblank lines, an integer
index, a timing line, and the remaining lines joined as the text. -/
def parseBlock (block : List Char) : Option Subtitle :=
  match (splitLines block).filter (fun l => !(jsTrim l).isEmpty) with
  | l0 :: l1 :: l2 :: rest =>
    match jsParseInt l0 with
    | none => none
    | some id =>
      match findTimeLine l1 with
      | none => none
      | some (t1, t2) =>
        some { id := id, startTime := timeVal t1, endTime := timeVal t2,
               text := List.intercalate ['\n'] (l2 :: rest), originalText := none }
  | _ => none

/-- `parseSRT` of `srtParser.ts`. -/
def parseSRT (content : List Char) : List Subtitle :=
  ((splitBlocks (normEol content)).filter (fun b => !(jsTrim b).isEmpty)).filterMap
    parseBlock

/-- One block of `generateSRT`; a falsy (zero) id is replaced by
`index + 1`. -/
def genBlock (indexPlusOne : ℤ) (sub : Subtitle) : List Char :=
  intToChars (if sub.id = 0 then indexPlusOne else sub.id) ++ '\n' ::
    (secondsToSrtTime sub.startTime ++ str " --> " ++ secondsToSrtTime sub.endTime) ++
    '\n' :: sub.text

/-- The blocks of `generateSRT`, indexed from 1. -/
def genBlocks : ℤ → List Subtitle → List (List Char)
  | _, [] => []
  | i, sub :: rest => genBlock i sub :: genBlocks (i + 1) rest

/-- `generateSRT` of `srtParser.ts`. -/
def generateSRT (subs : List Subtitle) : List Char :=
  List.intercalate (str "\n\n") (genBlocks 1 subs) ++ ['\n']

/-- `replace(',', '.')` with a string pattern: first occurrence only. -/
def replaceFirstComma : List Char → List Char
  | [] => []
  | ',' :: rest => '.' :: rest
  | c :: rest => c :: replaceFirstComma rest

/-- One block of `generateVTT` (dot-millisecond timecodes, no index). -/
def vttBlock (sub : Subtitle) : List Char :=
  replaceFirstComma (secondsToSrtTime sub.startTime) ++ str " --> " ++
    replaceFirstComma (secondsToSrtTime sub.endTime) ++ '\n' :: sub.text

/-- `generateVTT` of `srtParser.ts`. -/
def generateVTT (subs : List Subtitle) : List Char :=
  str "WEBVTT\n\n" ++ List.intercalate (str "\n\n") (subs.map vttBlock) ++ ['\n']

/-- The word-level timestamps of the worked example of the spec
("Zdravo" 0–0.5, "svete" 0.6–1.0, "Kako" 2.5–2.9, "si" 3.0–3.3). -/
def zdravoWords : List SpeechWord :=
  [⟨str "Zdravo", 0, 1/2⟩, ⟨str "svete", 3/5, 1⟩,
   ⟨str "Kako", 5/2, 29/10⟩, ⟨str "si", 3, 33/10⟩]

/-- A time that is a whole number of milliseconds. -/
def msMult (q : ℚ) : Prop := (q * 1000).den = 1

/-- Placeholder element for positional access with `List.getD`. -/
def defaultSubtitle : Subtitle := ⟨0, 0, 0, [], none⟩

/-- Verification predicate: a display line produced by the formatter —
no internal newline, and within the character budget unless it is a
single overlong word (a token of the normalized text `W`). -/
def GoodLine (mc : ℤ) (W : List (List Char)) (l : List Char) : Prop :=
  '\n' ∉ l ∧ ((l.length : ℤ) ≤ mc ∨ l ∈ W)

/-- Verification predicate: invariant of the word loop of `segmentText`
(multi-line mode) relating the accumulated state to the budgets. -/
def SegInv (mc ml : ℤ) (W : List (List Char)) (st : SegState) : Prop :=
  (∀ s ∈ st.segments, ∃ ls, s = List.intercalate ['\n'] ls ∧ ls ≠ [] ∧
    (ls.length : ℤ) ≤ ml ∧ ∀ l ∈ ls, GoodLine mc W l) ∧
  (∀ l ∈ st.currentSegment, GoodLine mc W l) ∧
  st.lineCount = (st.currentSegment.length : ℤ) ∧
  st.lineCount ≤ ml - 1 ∧
  '\n' ∉ st.currentLine ∧
  (st.currentLine = [] ∨ (st.currentLine.length : ℤ) ≤ mc ∨ st.currentLine ∈ W)

/-- Verification predicate: invariant of the word loop of
`segmentTextSingleLine` over its (segments, currentLine) pair. -/
def SLInv (mc : ℤ) (W : List (List Char)) (st : List (List Char) × List Char) : Prop :=
  (∀ s ∈ st.1, '\n' ∉ s ∧ ((s.length : ℤ) ≤ mc ∨ s ∈ W)) ∧
  '\n' ∉ st.2 ∧ (st.2 = [] ∨ (st.2.length : ℤ) ≤ mc ∨ st.2 ∈ W)

/-- Verification predicate: a serialized block as `generateSRT` emits it —
nonempty, no leading or trailing newline, and no two adjacent newlines —
so that `split(/\n\n+/)` recovers it intact. -/
def GoodBlock (b : List Char) : Prop :=
  b ≠ [] ∧ b.head? ≠ some '\n' ∧ b.getLast? ≠ some '\n' ∧
    List.Chain' (fun a c => ¬(a = '\n' ∧ c = '\n')) b

-- ===================== Theorems =====================

theorem assocFind_mem {α β : Type} [DecidableEq α] {l : List (α × β)} {a : α}
    {v : β} (h : assocFind l a = some v) : (a, v) ∈ l := by
  induction l with
  | nil => simp [assocFind] at h
  | cons p rest ih =>
    obtain ⟨k, w⟩ := p
    by_cases hak : a = k
    · subst hak
      simp [assocFind] at h
      simp [h]
    · simp [assocFind, hak] at h
      exact List.mem_cons_of_mem _ (ih h)

theorem l2cSingles_out_not_key : ∀ p ∈ l2cSingles, assocFind l2cSingles p.2 = none := by
  decide

theorem l2cDigraphs_out_not_key : ∀ p ∈ l2cDigraphs, assocFind l2cSingles p.2 = none := by
  decide

theorem l2cDigraphs_first_key :
    ∀ p ∈ l2cDigraphs, (assocFind l2cSingles p.1.1).isSome = true := by
  decide

theorem l2cSingles_rev : ∀ p ∈ l2cSingles, c2lChar p.2 = [p.1] := by
  decide

theorem cyrillicToLatin_append (x y : List Char) :
    cyrillicToLatin (x ++ y) = cyrillicToLatin x ++ cyrillicToLatin y := by
  induction x with
  | nil => rfl
  | cons c rest ih => simp [cyrillicToLatin, ih]

theorem latinToCyrillic_fixed :
    ∀ l : List Char, (∀ c ∈ l, assocFind l2cSingles c = none) →
      latinToCyrillic l = l := by
  intro l
  induction l using latinToCyrillic.induct with
  | case1 => intro _; rfl
  | case2 c y hs =>
    intro h
    have hc := h c (by simp)
    rw [hc] at hs
    simp at hs
  | case3 c hs =>
    intro h
    simp [latinToCyrillic, hs]
  | case4 a b rest y hd ih =>
    intro h
    have ha := h a (by simp)
    have hm := assocFind_mem hd
    have hk := l2cDigraphs_first_key _ hm
    simp at hk
    rw [ha] at hk
    simp at hk
  | case5 a b rest hd y hs ih =>
    intro h
    have ha := h a (by simp)
    rw [ha] at hs
    simp at hs
  | case6 a b rest hd hs ih =>
    intro h
    have hrec := ih (fun c hc => h c (List.mem_cons_of_mem _ hc))
    simp [latinToCyrillic, hd, hs, hrec]

theorem latinToCyrillic_chars :
    ∀ l : List Char, ∀ c ∈ latinToCyrillic l, assocFind l2cSingles c = none := by
  intro l
  induction l using latinToCyrillic.induct with
  | case1 => simp [latinToCyrillic]
  | case2 c y hs =>
    intro x hx
    simp [latinToCyrillic, hs] at hx
    subst hx
    exact l2cSingles_out_not_key _ (assocFind_mem hs)
  | case3 c hs =>
    intro x hx
    simp [latinToCyrillic, hs] at hx
    subst hx
    exact hs
  | case4 a b rest y hd ih =>
    intro x hx
    simp [latinToCyrillic, hd] at hx
    rcases hx with hx | hx
    · subst hx
      exact l2cDigraphs_out_not_key _ (assocFind_mem hd)
    · exact ih x hx
  | case5 a b rest hd y hs ih =>
    intro x hx
    simp [latinToCyrillic, hd, hs] at hx
    rcases hx with hx | hx
    · subst hx
      exact l2cSingles_out_not_key _ (assocFind_mem hs)
    · exact ih x hx
  | case6 a b rest hd hs ih =>
    intro x hx
    simp [latinToCyrillic, hd, hs] at hx
    rcases hx with hx | hx
    · subst hx
      exact hs
    · exact ih x hx

theorem latinToCyrillic_idem (l : List Char) :
    latinToCyrillic (latinToCyrillic l) = latinToCyrillic l :=
  latinToCyrillic_fixed _ (latinToCyrillic_chars l)

/-- C9: `ensureCyrillic` is idempotent — for every string,
`ensureCyrillic (ensureCyrillic s) = ensureCyrillic s` — and input
detected as Cyrillic is returned unchanged, without any substitution. -/
theorem ensureCyrillic_idem :
    ∀ l : List Char,
      ensureCyrillic (ensureCyrillic l) = ensureCyrillic l ∧
      (isCyrillic l = true → ensureCyrillic l = l) := by
  intro l
  constructor
  · by_cases h : isCyrillic l
    · simp [ensureCyrillic, h]
    · simp only [ensureCyrillic, h, if_false, Bool.false_eq_true]
      by_cases h2 : isCyrillic (latinToCyrillic l) <;>
        simp [h2, latinToCyrillic_idem]
  · intro h
    simp [ensureCyrillic, h]

/-- C9 witness: a concrete Cyrillic input is a fixed point. -/
theorem ensureCyrillic_idem_witness :
    ensureCyrillic (ensureCyrillic (str "Здраво")) = ensureCyrillic (str "Здраво") ∧
    ensureCyrillic (str "Здраво") = str "Здраво" :=
  ⟨(ensureCyrillic_idem (str "Здраво")).1,
   (ensureCyrillic_idem (str "Здраво")).2 (by decide)⟩

/-- C2 counterexample: "LJ" consists only of mapped characters, but the
round trip returns "Lj" — the all-caps digraph spellings are not
recovered. -/
theorem latin_round_trip_cex :
    cyrillicToLatin (latinToCyrillic (str "LJ")) = str "Lj" ∧
    cyrillicToLatin (latinToCyrillic (str "LJ")) ≠ str "LJ" := by
  decide


theorem c2lChar_of_digraph {a b y : Char}
    (hd : assocFind l2cDigraphs (a, b) = some y)
    (hb : badPairB a b = false) : c2lChar y = [a, b] := by
  unfold badPairB at hb
  rw [hd] at hb
  simpa using hb

theorem cyrillicToLatin_fixed :
    ∀ l : List Char, (∀ c ∈ l, assocFind c2lSingles c = none) →
      cyrillicToLatin l = l := by
  intro l h
  induction l with
  | nil => rfl
  | cons c rest ih =>
    have hc := h c (by simp)
    have hrec := ih (fun x hx => h x (List.mem_cons_of_mem _ hx))
    simp [cyrillicToLatin, c2lChar, hc, hrec]

/-- C2 (amended): the round trip `cyrillicToLatin ∘ latinToCyrillic`
is the identity on strings over the single-character mapped alphabet
provided no adjacent pair forms a digraph key whose Cyrillic image maps
back to a different spelling (the all-caps forms "LJ", "NJ", "DŽ" and
the alternative spellings "Dz", "DZ", "dz", "DJ", "Dj", "dj" are
excluded; the canonical "Lj", "lj", "Nj", "nj", "Dž", "dž" are fine);
characters absent from both mapping tables pass through unchanged in
both directions. -/
theorem latin_cyrillic_round_trip :
    (∀ l : List Char, (∀ c ∈ l, (assocFind l2cSingles c).isSome = true) →
      l.Chain' (fun a b => badPairB a b = false) →
      cyrillicToLatin (latinToCyrillic l) = l) ∧
    (∀ l : List Char,
      (∀ c ∈ l, assocFind l2cSingles c = none ∧ assocFind c2lSingles c = none) →
      latinToCyrillic l = l ∧ cyrillicToLatin l = l) := by
  constructor
  · intro l
    induction l using latinToCyrillic.induct with
    | case1 => intro _ _; rfl
    | case2 c y hs =>
      intro _ _
      have := l2cSingles_rev _ (assocFind_mem hs)
      simp [latinToCyrillic, hs, cyrillicToLatin, this]
    | case3 c hs =>
      intro h _
      have := h c (by simp)
      rw [hs] at this
      simp at this
    | case4 a b rest y hd ih =>
      intro h hch
      have hpair : badPairB a b = false := (List.chain'_cons.mp hch).1
      have hrest : rest.Chain' (fun a b => badPairB a b = false) :=
        (List.chain'_cons.mp hch).2.tail
      have hmem : ∀ c ∈ rest, (assocFind l2cSingles c).isSome = true :=
        fun c hc => h c (by simp [hc])
      have hrec := ih hmem hrest
      simp [latinToCyrillic, hd, cyrillicToLatin, c2lChar_of_digraph hd hpair, hrec]
    | case5 a b rest hd y hs ih =>
      intro h hch
      have hmem : ∀ c ∈ b :: rest, (assocFind l2cSingles c).isSome = true :=
        fun c hc => h c (by simp at hc; simp [hc])
      have hrec := ih hmem hch.tail
      have := l2cSingles_rev _ (assocFind_mem hs)
      simp [latinToCyrillic, hd, hs, cyrillicToLatin, this, hrec]
    | case6 a b rest hd hs ih =>
      intro h _
      have := h a (by simp)
      rw [hs] at this
      simp at this
  · intro l h
    refine ⟨latinToCyrillic_fixed l (fun c hc => (h c hc).1), ?_⟩
    exact cyrillicToLatin_fixed l (fun c hc => (h c hc).2)

/-- C2 witness: the round trip is the identity on "Njegova", and the
unmapped characters "0-2!" pass through both maps unchanged. -/
theorem latin_cyrillic_round_trip_witness :
    cyrillicToLatin (latinToCyrillic (str "Njegova")) = str "Njegova" ∧
    latinToCyrillic (str "0-2!") = str "0-2!" ∧
    cyrillicToLatin (str "0-2!") = str "0-2!" :=
  ⟨latin_cyrillic_round_trip.1 (str "Njegova") (by decide)
    (by simp only [str, List.chain'_cons, List.chain'_singleton, and_true]; decide),
   (latin_cyrillic_round_trip.2 (str "0-2!") (by decide)).1,
   (latin_cyrillic_round_trip.2 (str "0-2!") (by decide)).2⟩

theorem clip_eq_min (a b : ℚ) : (if a > b then b else a) = min b a := by
  split_ifs with h
  · exact (min_eq_left (le_of_lt h)).symm
  · push_neg at h
    exact (min_eq_right h).symm

theorem adjustOne_eq_spec (sub : Subtitle) (ns : Option ℚ) :
    adjustOne sub ns = adjustOneSpec sub ns := by
  have hdur :
      (if (if sub.endTime - sub.startTime < 1 then sub.startTime + 1 else sub.endTime) -
          sub.startTime > 5 then sub.startTime + 5
        else (if sub.endTime - sub.startTime < 1 then sub.startTime + 1 else sub.endTime)) =
      sub.startTime + min 5 (max 1 (sub.endTime - sub.startTime)) := by
    split_ifs with h1 h2 h3
    · linarith
    · rw [max_eq_left (by linarith), min_eq_right (by norm_num)]
    · rw [max_eq_right (by linarith), min_eq_left (by linarith)]
    · rw [max_eq_right (by linarith), min_eq_right (by linarith)]
      ring
  cases ns with
  | none =>
    simp only [adjustOne, adjustOneSpec]
    rw [hdur]
  | some v =>
    simp only [adjustOne, adjustOneSpec]
    rw [hdur, clip_eq_min]

theorem adjustTiming_eq_spec : ∀ subs, adjustTiming subs = adjustTimingSpec subs := by
  intro subs
  induction subs using adjustTiming.induct with
  | case1 => rfl
  | case2 sub => simp [adjustTiming, adjustTimingSpec, adjustOne_eq_spec]
  | case3 sub next rest ih =>
    simp only [adjustTiming, adjustTimingSpec, List.tail_cons, List.map_cons,
      List.cons_append, List.zipWith_cons_cons, adjustOne_eq_spec,
      List.cons.injEq, true_and] at *
    exact ih

/-- C4 (amended): `adjustTiming` rewrites every cue independently, from
itself and the original start of its successor: clamp the duration into
[1.0, 5.0] by moving only the end, clip the end to `next.start - 0.1`
when it would come within less than 0.1s of the following cue's start,
clamp the start to ≥ 0, and re-clamp the end to at least the cue's
original (pre-clamp) start + 0.5 — not the clamped start; in particular
the cue {5.0, 5.2} with no following cue gets normalized end 6.0. -/
theorem adjustTiming_characterization :
    (∀ subs : List Subtitle, adjustTiming subs = adjustTimingSpec subs) ∧
    adjustTiming [⟨1, 5, 26/5, [], none⟩] = [⟨1, 5, 6, [], none⟩] := by
  refine ⟨adjustTiming_eq_spec, ?_⟩
  norm_num [adjustTiming, adjustOne, max_def]

/-- C4 counterexample: on the cue {-1.0, -0.8} the code's end floor uses
the original start (-1.0), so the output is {0, 0}, not the
{0, end ≥ 0.5} demanded by re-clamping the end against the already
clamped start. -/
theorem adjustTiming_end_floor_cex :
    adjustTiming [⟨1, -1, -4/5, [], none⟩] = [⟨1, 0, 0, [], none⟩] ∧
    ¬ ((0 : ℚ) + 1/2 ≤ 0) := by
  constructor
  · norm_num [adjustTiming, adjustOne, max_def]
  · norm_num

theorem round3_nonneg {q : ℚ} (h : 0 ≤ q) : 0 ≤ round3 q := by
  unfold round3 jsRound
  have h1 : (0 : ℤ) ≤ ⌊q * 1000 + 1/2⌋ := by
    rw [Int.le_floor]
    push_cast
    nlinarith
  positivity

theorem adjustOne_pos (sub : Subtitle) (ns : Option ℚ) (h : 0 ≤ sub.startTime) :
    (adjustOne sub ns).startTime < (adjustOne sub ns).endTime := by
  simp only [adjustOne]
  rw [max_eq_right h]
  calc sub.startTime < sub.startTime + 1/2 := by linarith
    _ ≤ _ := le_max_left _ _

theorem mem_adjustTiming {cue : Subtitle} :
    ∀ {cs : List Subtitle}, cue ∈ adjustTiming cs →
      ∃ sub ∈ cs, ∃ ns, cue = adjustOne sub ns := by
  intro cs
  induction cs using adjustTiming.induct with
  | case1 => simp [adjustTiming]
  | case2 sub =>
    intro h
    simp only [adjustTiming, List.mem_singleton] at h
    exact ⟨sub, by simp, none, h⟩
  | case3 sub next rest ih =>
    intro h
    simp only [adjustTiming, List.mem_cons] at h
    rcases h with h | h
    · exact ⟨sub, by simp, some next.startTime, h⟩
    · obtain ⟨s, hs, ns, he⟩ := ih h
      exact ⟨s, List.mem_cons_of_mem _ hs, ns, he⟩

theorem buildCues_start_nonneg (idStart : ℤ) (s d : ℚ) (hs : 0 ≤ s) (hd : 0 ≤ d) :
    ∀ (segs : List (List Char)) (k : ℕ),
      ∀ cue ∈ buildCues idStart s d segs k, 0 ≤ cue.startTime := by
  intro segs
  induction segs with
  | nil => simp [buildCues]
  | cons t rest ih =>
    intro k cue hc
    simp only [buildCues, List.mem_cons] at hc
    rcases hc with hc | hc
    · subst hc
      apply round3_nonneg
      have hk : (0 : ℚ) ≤ (k : ℚ) * d := mul_nonneg (by positivity) hd
      linarith
    · exact ih (k + 1) cue hc

theorem optimizeRaw_start_nonneg (mc ml : ℤ) :
    ∀ (subs : List Subtitle) (idc : ℤ),
      (∀ s ∈ subs, 0 ≤ s.startTime ∧ s.startTime ≤ s.endTime) →
      ∀ cue ∈ optimizeRaw mc ml subs idc, 0 ≤ cue.startTime := by
  intro subs
  induction subs with
  | nil => simp [optimizeRaw]
  | cons sub rest ih =>
    intro idc h cue hc
    simp only [optimizeRaw, List.mem_append] at hc
    rcases hc with hc | hc
    · have hsub := h sub (by simp)
      refine buildCues_start_nonneg _ _ _ hsub.1 ?_ _ _ cue hc
      apply div_nonneg (by linarith [hsub.2]) (by positivity)
    · exact ih _ (fun s hs => h s (List.mem_cons_of_mem _ hs)) cue hc

theorem adjustTiming_getD (cs : List Subtitle) :
    ∀ i, i < cs.length →
      (adjustTiming cs).getD i defaultSubtitle =
        adjustOne (cs.getD i defaultSubtitle)
          (if i + 1 < cs.length then some ((cs.getD (i + 1) defaultSubtitle).startTime)
           else none) := by
  induction cs using adjustTiming.induct with
  | case1 => intro i hi; simp at hi
  | case2 sub =>
    intro i hi
    have h0 : i = 0 := by simp at hi; omega
    subst h0
    simp [adjustTiming, List.getD]
  | case3 sub next rest ih =>
    intro i hi
    cases i with
    | zero =>
      have hc : 0 + 1 < (sub :: next :: rest).length := by simp
      rw [if_pos hc]
      simp [adjustTiming, List.getD]
    | succ j =>
      have hj : j < (next :: rest).length := by
        simp at hi ⊢
        omega
      have hrec := ih j hj
      have hL : (adjustTiming (sub :: next :: rest)).getD (j + 1) defaultSubtitle =
          (adjustTiming (next :: rest)).getD j defaultSubtitle := by
        simp only [adjustTiming]
        rw [List.getD_cons_succ]
      rw [hL, hrec]
      by_cases hc : j + 1 < (next :: rest).length
      · have hc2 : j + 1 + 1 < (sub :: next :: rest).length := by simp at hc ⊢; omega
        rw [if_pos hc, if_pos hc2]
        simp [List.getD_cons_succ]
      · have hc2 : ¬ (j + 1 + 1 < (sub :: next :: rest).length) := by
          simp at hc ⊢; omega
        rw [if_neg hc, if_neg hc2]
        simp [List.getD_cons_succ]

/-- C1 (amended): for input lists whose subtitles all have
`0 ≤ startTime ≤ endTime`, every cue produced by `optimizeSubtitles`
satisfies `startTime < endTime`; and in `adjustTiming` two consecutive
output cues satisfy `endTime ≤ next.startTime` whenever the
corresponding input start times are at least 0.5s apart — when
consecutive starts are closer than 0.5s the absolute end floor
`start + 0.5` can re-introduce an overlap, so the no-overlap invariant
does not hold unconditionally. -/
theorem pipeline_timing_invariants :
    (∀ (subs : List Subtitle) (mc ml : ℤ),
      (∀ s ∈ subs, 0 ≤ s.startTime ∧ s.startTime ≤ s.endTime) →
      ∀ cue ∈ optimizeSubtitles subs mc ml, cue.startTime < cue.endTime) ∧
    (∀ (cs : List Subtitle) (i : ℕ), i + 1 < cs.length →
      (cs.getD i defaultSubtitle).startTime + 1/2 ≤
        (cs.getD (i + 1) defaultSubtitle).startTime →
      ((adjustTiming cs).getD i defaultSubtitle).endTime ≤
        ((adjustTiming cs).getD (i + 1) defaultSubtitle).startTime) := by
  constructor
  · intro subs mc ml h cue hc
    simp only [optimizeSubtitles] at hc
    obtain ⟨sub, hsub, ns, rfl⟩ := mem_adjustTiming hc
    exact adjustOne_pos _ _ (optimizeRaw_start_nonneg mc ml subs 1 h _ hsub)
  · intro cs i hi hgap
    have hi0 : i < cs.length := by omega
    rw [adjustTiming_getD cs i hi0, if_pos hi, adjustTiming_getD cs (i + 1) hi]
    set s := (cs.getD i defaultSubtitle).startTime with hs
    set e := (cs.getD i defaultSubtitle).endTime with he
    set ns := (cs.getD (i + 1) defaultSubtitle).startTime with hns
    simp only [adjustOne]
    have hright : ns ≤ max 0 ns := le_max_right _ _
    refine le_trans (max_le (by linarith) ?_) hright
    split_ifs <;> linarith

/-- C1 witness: the invariants applied to concrete inputs — a single
well-timed subtitle keeps `start < end`, and two cues 5 seconds apart
stay non-overlapping through `adjustTiming`. -/
theorem pipeline_timing_invariants_witness :
    ((⟨1, 0, 2, str "a", none⟩ : Subtitle) ∈
        optimizeSubtitles [⟨1, 0, 2, str "a", none⟩] 40 2 ∧
      (⟨1, 0, 2, str "a", none⟩ : Subtitle).startTime <
        (⟨1, 0, 2, str "a", none⟩ : Subtitle).endTime) ∧
    ((adjustTiming [⟨1, 0, 2, [], none⟩, ⟨2, 5, 6, [], none⟩]).getD 0
        defaultSubtitle).endTime ≤
      ((adjustTiming [⟨1, 0, 2, [], none⟩, ⟨2, 5, 6, [], none⟩]).getD 1
        defaultSubtitle).startTime := by
  have hseg : segmentText (str "a") 40 2 = [str "a"] := by decide
  have heq : optimizeSubtitles [⟨1, 0, 2, str "a", none⟩] 40 2 =
      [⟨1, 0, 2, str "a", none⟩] := by
    simp only [optimizeSubtitles, optimizeRaw, hseg]
    norm_num [buildCues, round3, jsRound, adjustTiming, adjustOne, max_def]
  have hmem : (⟨1, 0, 2, str "a", none⟩ : Subtitle) ∈
      optimizeSubtitles [⟨1, 0, 2, str "a", none⟩] 40 2 := by
    rw [heq]; simp
  refine ⟨⟨hmem, ?_⟩, ?_⟩
  · exact pipeline_timing_invariants.1 [⟨1, 0, 2, str "a", none⟩] 40 2
      (by norm_num) _ hmem
  · exact pipeline_timing_invariants.2 [⟨1, 0, 2, [], none⟩, ⟨2, 5, 6, [], none⟩] 0
      (by norm_num) (by norm_num [List.getD])

/-- C1 counterexample: two input cues 0.3s apart pass through the
pipeline into output cues [0, 0.5] and [0.3, 2]: the first cue's end
exceeds the second cue's start, so the claimed unconditional
`cue[i].end ≤ cue[i+1].start` invariant fails. -/
theorem pipeline_overlap_cex :
    optimizeSubtitles [⟨1, 0, 2, str "a", none⟩, ⟨2, 3/10, 2, str "b", none⟩] 40 2 =
      [⟨1, 0, 1/2, str "a", none⟩, ⟨2, 3/10, 2, str "b", none⟩] ∧
    ¬ ((1/2 : ℚ) ≤ 3/10) := by
  constructor
  · have hsega : segmentText (str "a") 40 2 = [str "a"] := by decide
    have hsegb : segmentText (str "b") 40 2 = [str "b"] := by decide
    simp only [optimizeSubtitles, optimizeRaw, hsega, hsegb]
    norm_num [buildCues, round3, jsRound, adjustTiming, adjustOne, max_def]
  · norm_num

theorem segmentTextSingleLine_ne_nil (words : List (List Char)) (mc : ℤ) :
    segmentTextSingleLine words mc ≠ [] := by
  simp only [segmentTextSingleLine]
  split_ifs <;> simp_all

theorem segmentText_ne_nil (text : List Char) (mc ml : ℤ) :
    segmentText text mc ml ≠ [] := by
  simp only [segmentText]
  split_ifs <;> simp_all [segmentTextSingleLine_ne_nil]

theorem adjustTiming_length (cs : List Subtitle) :
    (adjustTiming cs).length = cs.length := by
  induction cs using adjustTiming.induct <;> simp [adjustTiming, *]

theorem buildCues_length (idStart : ℤ) (s d : ℚ) :
    ∀ (segs : List (List Char)) (k : ℕ),
      (buildCues idStart s d segs k).length = segs.length := by
  intro segs
  induction segs with
  | nil => simp [buildCues]
  | cons t rest ih => intro k; simp [buildCues, ih]

theorem optimizeRaw_length_ge (mc ml : ℤ) :
    ∀ (subs : List Subtitle) (idc : ℤ),
      subs.length ≤ (optimizeRaw mc ml subs idc).length := by
  intro subs
  induction subs with
  | nil => simp [optimizeRaw]
  | cons sub rest ih =>
    intro idc
    simp only [optimizeRaw, List.length_append, List.length_cons, buildCues_length]
    have h1 : 1 ≤ (segmentText sub.text mc ml).length :=
      List.length_pos.mpr (segmentText_ne_nil sub.text mc ml)
    have h2 := ih (idc + (segmentText sub.text mc ml).length)
    omega

/-- C10: for every text (including whitespace-only and empty text),
`segmentText` returns at least one segment — the fallbacks return the
original text, or a single empty string in single-line mode — so the
division by `segments.length` in `optimizeSubtitles` never divides by
zero, and every input subtitle contributes at least one output cue. -/
theorem segmentText_total_nonempty :
    (∀ (text : List Char) (mc ml : ℤ), segmentText text mc ml ≠ []) ∧
    (∀ (subs : List Subtitle) (mc ml : ℤ),
      subs.length ≤ (optimizeSubtitles subs mc ml).length) := by
  refine ⟨segmentText_ne_nil, ?_⟩
  intro subs mc ml
  simp only [optimizeSubtitles, adjustTiming_length]
  exact optimizeRaw_length_ge mc ml subs 1

theorem buildCues_getD (idStart : ℤ) (s d : ℚ) :
    ∀ (segs : List (List Char)) (k0 j : ℕ), j < segs.length →
      (buildCues idStart s d segs k0).getD j defaultSubtitle =
        { id := idStart + (k0 + j : ℕ),
          startTime := round3 (s + ((k0 + j : ℕ) : ℚ) * d),
          endTime := round3 (s + ((k0 + j : ℕ) : ℚ) * d + d),
          text := segs.getD j [], originalText := none } := by
  intro segs
  induction segs with
  | nil => intro k0 j hj; simp at hj
  | cons t rest ih =>
    intro k0 j hj
    cases j with
    | zero => simp [buildCues]
    | succ i =>
      have hi : i < rest.length := by simp at hj; omega
      have := ih (k0 + 1) i hi
      simp only [buildCues, List.getD_cons_succ, this]
      have harith : k0 + 1 + i = k0 + (i + 1) := by omega
      rw [harith]

theorem optimizeRaw_id_seq (mc ml : ℤ) :
    ∀ (subs : List Subtitle) (idc : ℤ) (j : ℕ),
      j < (optimizeRaw mc ml subs idc).length →
      ((optimizeRaw mc ml subs idc).getD j defaultSubtitle).id = idc + j := by
  intro subs
  induction subs with
  | nil => intro idc j hj; simp [optimizeRaw] at hj
  | cons sub rest ih =>
    intro idc j hj
    simp only [optimizeRaw] at hj ⊢
    by_cases hlt : j < (segmentText sub.text mc ml).length
    · rw [List.getD_append _ _ _ _ (by rw [buildCues_length]; exact hlt)]
      rw [buildCues_getD _ _ _ _ 0 j hlt]
      push_cast
      ring
    · push_neg at hlt
      have hlen : (buildCues idc sub.startTime
          ((sub.endTime - sub.startTime) / ((segmentText sub.text mc ml).length : ℚ))
          (segmentText sub.text mc ml) 0).length = (segmentText sub.text mc ml).length :=
        buildCues_length _ _ _ _ _
      rw [List.getD_append_right _ _ _ _ (by omega)]
      rw [hlen]
      have hj2 : j - (segmentText sub.text mc ml).length <
          (optimizeRaw mc ml rest (idc + (segmentText sub.text mc ml).length)).length := by
        simp only [List.length_append, hlen] at hj
        omega
      rw [ih _ _ hj2]
      push_cast [Nat.cast_sub hlt]
      ring

/-- C6 (amended): when the formatter splits one input cue into N
sub-cues, sub-cue k gets the evenly divided window rounded to whole
milliseconds: `[round3(start + k·Δ), round3(start + (k+1)·Δ)]` with
`Δ = duration / N` (not the exact real-valued division the claim
states); ids are renumbered sequentially from the running counter;
N = 1 keeps the original window up to the same millisecond rounding;
the concrete example "Dobrodošli u aplikaciju za titlovanje." with
window {0, 3} and layout {50, 2} yields exactly one cue with id 1,
start 0, end 3 and unchanged text. -/
theorem optimize_time_slice :
    (∀ (sub : Subtitle) (mc ml idStart : ℤ) (j : ℕ),
      j < (segmentText sub.text mc ml).length →
      (optimizeRaw mc ml [sub] idStart).getD j defaultSubtitle =
        { id := idStart + j,
          startTime := round3 (sub.startTime + (j : ℚ) *
            ((sub.endTime - sub.startTime) / ((segmentText sub.text mc ml).length : ℚ))),
          endTime := round3 (sub.startTime + (j : ℚ) *
            ((sub.endTime - sub.startTime) / ((segmentText sub.text mc ml).length : ℚ)) +
            (sub.endTime - sub.startTime) / ((segmentText sub.text mc ml).length : ℚ)),
          text := (segmentText sub.text mc ml).getD j [], originalText := none }) ∧
    (∀ (subs : List Subtitle) (mc ml idc : ℤ) (j : ℕ),
      j < (optimizeRaw mc ml subs idc).length →
      ((optimizeRaw mc ml subs idc).getD j defaultSubtitle).id = idc + j) ∧
    optimizeSubtitles [⟨1, 0, 3, str "Dobrodošli u aplikaciju za titlovanje.", none⟩]
        50 2 =
      [⟨1, 0, 3, str "Dobrodošli u aplikaciju za titlovanje.", none⟩] := by
  refine ⟨?_, fun subs mc ml idc j hj => optimizeRaw_id_seq mc ml subs idc j hj, ?_⟩
  · intro sub mc ml idStart j hj
    simp only [optimizeRaw, List.append_nil]
    rw [buildCues_getD _ _ _ _ 0 j hj]
    norm_num
  · have hseg : segmentText (str "Dobrodošli u aplikaciju za titlovanje.") 50 2 =
        [str "Dobrodošli u aplikaciju za titlovanje."] := by decide
    simp only [optimizeSubtitles, optimizeRaw, hseg]
    norm_num [buildCues, round3, jsRound, adjustTiming, adjustOne, max_def]

/-- C6 witness: the first sub-cue of a concrete three-way split carries
the rounded third of the window, and its id continues the counter. -/
theorem optimize_time_slice_witness :
    (optimizeRaw 1 1 [⟨1, 0, 1, str "a b c", none⟩] 1).getD 0 defaultSubtitle =
      { id := 1, startTime := round3 (0 + (0 : ℚ) * ((1 - 0) / (3 : ℚ))),
        endTime := round3 (0 + (0 : ℚ) * ((1 - 0) / (3 : ℚ)) + (1 - 0) / (3 : ℚ)),
        text := str "a", originalText := none } ∧
    ((optimizeRaw 1 1 [⟨1, 0, 1, str "a b c", none⟩] 1).getD 2 defaultSubtitle).id =
      1 + 2 := by
  have hseg : segmentText (str "a b c") 1 1 = [str "a", str "b", str "c"] := by decide
  constructor
  · have h := optimize_time_slice.1 ⟨1, 0, 1, str "a b c", none⟩ 1 1 1 0
      (by rw [hseg]; norm_num)
    rw [hseg] at h
    simpa using h
  · refine optimize_time_slice.2.1 [⟨1, 0, 1, str "a b c", none⟩] 1 1 1 2 ?_
    simp only [optimizeRaw, List.append_nil, buildCues_length, hseg]
    norm_num

/-- C6 counterexample: splitting the window {0, 1} into N = 3 sub-cues
gives the first cue the end time 0.333 (the millisecond rounding of
1/3), not the exact `start + Δ = 1/3` of the claimed formula. -/
theorem optimize_time_slice_cex :
    optimizeRaw 1 1 [⟨1, 0, 1, str "a b c", none⟩] 1 =
      [⟨1, 0, 333/1000, str "a", none⟩, ⟨2, 333/1000, 667/1000, str "b", none⟩,
       ⟨3, 667/1000, 1, str "c", none⟩] ∧
    ¬ ((333 : ℚ)/1000 = 1/3) := by
  constructor
  · have hseg : segmentText (str "a b c") 1 1 = [str "a", str "b", str "c"] := by decide
    simp only [optimizeRaw, hseg, List.append_nil]
    norm_num [buildCues, round3, jsRound]
  · norm_num

theorem singleLine_fold_degenerate {mc : ℤ} (hmc : mc ≤ 0) :
    ∀ (words : List (List Char)) (segs : List (List Char)) (cur : List Char),
      (∀ w ∈ words, w ≠ []) →
      (let fin := words.foldl
        (fun (st : List (List Char) × List Char) word =>
          let testLine := if st.2 = [] then word else st.2 ++ ' ' :: word
          if (testLine.length : ℤ) ≤ mc then (st.1, testLine)
          else (if st.2 = [] then st.1 else st.1 ++ [st.2], word)) (segs, cur);
      (if fin.2 = [] then fin.1 else fin.1 ++ [fin.2])) =
        segs ++ (if cur = [] then words else cur :: words) := by
  intro words
  induction words with
  | nil =>
    intro segs cur _
    by_cases hcur : cur = [] <;> simp [hcur]
  | cons w ws ih =>
    intro segs cur hws
    have hw : w ≠ [] := hws w (by simp)
    have hrec := ih (if cur = [] then segs else segs ++ [cur]) w
      (fun x hx => hws x (by simp [hx]))
    by_cases hcur : cur = []
    · subst hcur
      have htest : ¬ ((w.length : ℤ) ≤ mc) := by
        have : 0 < w.length := List.length_pos.mpr hw
        omega
      simp only [List.foldl_cons, reduceIte, if_neg htest] at hrec ⊢
      rw [hrec, if_neg hw]
    · have htest : ¬ (((cur ++ ' ' :: w).length : ℤ) ≤ mc) := by
        have : 0 < (cur ++ ' ' :: w).length := by simp
        omega
      simp only [List.foldl_cons, reduceIte, if_neg hcur, if_neg htest] at hrec ⊢
      rw [hrec, if_neg hw]
      try simp [List.append_assoc]

/-- C8 (amended): the formatter does not validate the layout budget and
never raises: with a non-positive maxCharsPerLine every word simply
becomes its own line/segment (here shown for the single-line mode),
and `optimizeSubtitles` returns an ordinary cue list even when called
with maxCharsPerLine = 0 — there is no invalid-configuration error in
the code, and data-quality issues never raise either (all pipeline
functions are total). -/
theorem no_config_error :
    (∀ (words : List (List Char)) (mc : ℤ), mc ≤ 0 → words ≠ [] →
      (∀ w ∈ words, w ≠ []) → segmentTextSingleLine words mc = words) ∧
    optimizeSubtitles [⟨1, 0, 2, str "ab", none⟩] 0 2 = [⟨1, 0, 2, str "ab", none⟩] := by
  constructor
  · intro words mc hmc hne hws
    have hrec := singleLine_fold_degenerate hmc words [] [] hws
    simp only [reduceIte, List.nil_append] at hrec
    simp only [segmentTextSingleLine, hrec, if_neg hne]
  · have hseg : segmentText (str "ab") 0 2 = [str "ab"] := by decide
    simp only [optimizeSubtitles, optimizeRaw, hseg]
    norm_num [buildCues, round3, jsRound, adjustTiming, adjustOne, max_def]

/-- C8 witness: with maxCharsPerLine = 0 the two words of a concrete
input are returned as two one-word segments, not an error. -/
theorem no_config_error_witness :
    segmentTextSingleLine [str "ab", str "c"] 0 = [str "ab", str "c"] :=
  no_config_error.1 [str "ab", str "c"] 0 (by norm_num) (by decide) (by decide)

/-- C8 counterexample: calling the formatter with the non-positive
budget maxCharsPerLine = 0 returns an ordinary cue list — the input
passes through unchanged — instead of failing fast with an
invalid-configuration error (no such error exists in the code). -/
theorem no_config_error_cex :
    optimizeSubtitles [⟨1, 0, 2, str "xy", none⟩] 0 1 = [⟨1, 0, 2, str "xy", none⟩] := by
  have hseg : segmentText (str "xy") 0 1 = [str "xy"] := by decide
  simp only [optimizeSubtitles, optimizeRaw, hseg]
  norm_num [buildCues, round3, jsRound, adjustTiming, adjustOne, max_def]

theorem splitWsAux_no_space :
    ∀ (l : List Char) (sep : Bool) (acc : List Char),
      (∀ c ∈ acc, isJsSpace c = false) →
      ∀ w ∈ splitWsAux sep l acc, ∀ c ∈ w, isJsSpace c = false := by
  intro l
  induction l with
  | nil =>
    intro sep acc hacc w hw c hc
    simp only [splitWsAux, List.mem_singleton] at hw
    subst hw
    exact hacc c (by simpa using hc)
  | cons x rest ih =>
    intro sep acc hacc w hw c hc
    simp only [splitWsAux] at hw
    by_cases hx : isJsSpace x
    · rw [if_pos hx] at hw
      cases sep with
      | true =>
        simp only [if_true] at hw
        exact ih true [] (by simp) w hw c hc
      | false =>
        simp only [Bool.false_eq_true, if_false, List.mem_cons] at hw
        rcases hw with hw | hw
        · subst hw
          exact hacc c (by simpa using hc)
        · exact ih true [] (by simp) w hw c hc
    · rw [if_neg hx] at hw
      refine ih false (x :: acc) ?_ w hw c hc
      intro d hd
      rcases List.mem_cons.mp hd with hd | hd
      · subst hd
        simpa using hx
      · exact hacc d hd

theorem jsSplitWs_no_space (l : List Char) :
    ∀ w ∈ jsSplitWs l, ∀ c ∈ w, isJsSpace c = false :=
  splitWsAux_no_space l false [] (by simp)

theorem splitWsAux_ne_nil : ∀ (sep : Bool) (l : List Char) (acc : List Char),
    splitWsAux sep l acc ≠ [] := by
  intro sep l
  induction l generalizing sep with
  | nil => intro acc; simp [splitWsAux]
  | cons x rest ih =>
    intro acc
    simp only [splitWsAux]
    split_ifs <;> simp [ih]

theorem getLast?_cons_ne {α : Type} (a : α) (l : List α) (h : l ≠ []) :
    (a :: l).getLast? = l.getLast? := by
  cases l with
  | nil => exact absurd rfl h
  | cons b t => exact List.getLast?_cons_cons

theorem splitWsAux_last_token :
    ∀ (l : List Char) (sep : Bool) (acc : List Char), l ≠ [] →
      (∀ c, l.getLast? = some c → isJsSpace c = false) →
      ∃ w, (splitWsAux sep l acc).getLast? = some w ∧ w ≠ [] := by
  intro l
  induction l with
  | nil => intro sep acc h; exact absurd rfl h
  | cons x rest ih =>
    intro sep acc _ hlast
    cases hr : rest with
    | nil =>
      have hx : isJsSpace x = false := by
        apply hlast
        simp [hr]
      subst hr
      refine ⟨acc.reverse ++ [x], ?_, by simp⟩
      simp [splitWsAux, hx, List.reverse_cons]
    | cons y t =>
      rw [← hr]
      have hrest : rest ≠ [] := by simp [hr]
      have hlast2 : ∀ c, rest.getLast? = some c → isJsSpace c = false := by
        intro c hc
        apply hlast
        rw [getLast?_cons_ne x rest hrest]
        exact hc
      simp only [splitWsAux]
      by_cases hx : isJsSpace x
      · rw [if_pos hx]
        cases sep with
        | true =>
          simp only [if_true]
          exact ih true [] hrest hlast2
        | false =>
          simp only [Bool.false_eq_true, if_false]
          obtain ⟨w, hw, hwne⟩ := ih true [] hrest hlast2
          refine ⟨w, ?_, hwne⟩
          rw [getLast?_cons_ne _ _ (splitWsAux_ne_nil true rest [])]
          exact hw
      · rw [if_neg hx]
        exact ih false (x :: acc) hrest hlast2

theorem head?_dropWhile_isJsSpace :
    ∀ (l : List Char) (c : Char), (l.dropWhile isJsSpace).head? = some c →
      isJsSpace c = false := by
  intro l
  induction l with
  | nil => intro c hc; simp [List.dropWhile] at hc
  | cons x rest ih =>
    intro c hc
    by_cases hx : isJsSpace x
    · rw [List.dropWhile_cons_of_pos hx] at hc
      exact ih c hc
    · rw [List.dropWhile_cons_of_neg hx] at hc
      simp only [List.head?_cons, Option.some.injEq] at hc
      subst hc
      simpa using hx

theorem jsTrim_last (l : List Char) :
    ∀ c, (jsTrim l).getLast? = some c → isJsSpace c = false := by
  intro c hc
  unfold jsTrim at hc
  rw [List.getLast?_reverse] at hc
  exact head?_dropWhile_isJsSpace _ c hc

theorem splitLinesAux_no_nl :
    ∀ (l acc : List Char), '\n' ∉ l → splitLinesAux l acc = [acc.reverse ++ l] := by
  intro l
  induction l with
  | nil => intro acc _; simp [splitLinesAux]
  | cons c rest ih =>
    intro acc hnl
    have hc : c ≠ '\n' := fun h => hnl (by simp [h])
    have hrest : '\n' ∉ rest := fun h => hnl (by simp [h])
    simp only [splitLinesAux]
    rw [ih (c :: acc) hrest]
    simp

theorem splitLinesAux_append_nl :
    ∀ (l acc r : List Char), '\n' ∉ l →
      splitLinesAux (l ++ '\n' :: r) acc = (acc.reverse ++ l) :: splitLinesAux r [] := by
  intro l
  induction l with
  | nil => intro acc r _; simp [splitLinesAux]
  | cons c rest ih =>
    intro acc r hnl
    have hc : c ≠ '\n' := fun h => hnl (by simp [h])
    have hrest : '\n' ∉ rest := fun h => hnl (by simp [h])
    simp only [List.cons_append, splitLinesAux]
    rw [ih (c :: acc) r hrest]
    simp

theorem splitLines_no_nl (l : List Char) (h : '\n' ∉ l) : splitLines l = [l] := by
  simpa using splitLinesAux_no_nl l [] h

theorem splitLines_intercalate :
    ∀ ls : List (List Char), ls ≠ [] → (∀ l ∈ ls, '\n' ∉ l) →
      splitLines (List.intercalate ['\n'] ls) = ls := by
  intro ls
  induction ls with
  | nil => intro h; exact absurd rfl h
  | cons l rest ih =>
    intro _ hnl
    cases rest with
    | nil =>
      have hone : List.intercalate ['\n'] [l] = l := by
        simp [List.intercalate]
      rw [hone]
      exact splitLines_no_nl l (hnl l (by simp))
    | cons l2 t =>
      have hcat : List.intercalate ['\n'] (l :: l2 :: t) =
          l ++ '\n' :: List.intercalate ['\n'] (l2 :: t) := by
        simp [List.intercalate, List.intersperse]
      rw [hcat]
      unfold splitLines
      rw [splitLinesAux_append_nl l [] _ (hnl l (by simp))]
      simp only [List.reverse_nil, List.nil_append, List.cons.injEq, true_and]
      exact ih (by simp) (fun x hx => hnl x (List.mem_cons_of_mem _ hx))

theorem segStep_inv {mc ml : ℤ} {W : List (List Char)} (hml : 0 < ml)
    {st : SegState} {w : List Char} (hw : w ∈ W)
    (hwc : ∀ c ∈ w, isJsSpace c = false)
    (hinv : SegInv mc ml W st) : SegInv mc ml W (segStep mc ml st w) := by
  obtain ⟨h1, h2, h3, h4, h5, h6⟩ := hinv
  have hwnl : '\n' ∉ w := fun hmem => by simpa [isJsSpace] using hwc '\n' hmem
  by_cases hcur : st.currentLine = []
  · simp only [segStep, if_pos hcur]
    by_cases hlen : ((w.length : ℤ) ≤ mc)
    · rw [if_pos hlen]
      exact ⟨h1, h2, h3, h4, hwnl, Or.inr (Or.inl hlen)⟩
    · rw [if_neg hlen, if_neg (show ¬ st.lineCount ≥ ml by omega)]
      exact ⟨h1, h2, h3, h4, hwnl, Or.inr (Or.inr hw)⟩
  · have htl : '\n' ∉ st.currentLine ++ ' ' :: w := by
      intro hmem
      rcases List.mem_append.mp hmem with hmem | hmem
      · exact h5 hmem
      · rcases List.mem_cons.mp hmem with hmem | hmem
        · exact absurd hmem.symm (by decide)
        · exact hwnl hmem
    have hgood : GoodLine mc W st.currentLine := by
      refine ⟨h5, ?_⟩
      rcases h6 with h | h | h
      · exact absurd h hcur
      · exact Or.inl h
      · exact Or.inr h
    simp only [segStep, if_neg hcur]
    by_cases hlen : (((st.currentLine ++ ' ' :: w).length : ℤ) ≤ mc)
    · rw [if_pos hlen]
      exact ⟨h1, h2, h3, h4, htl, Or.inr (Or.inl hlen)⟩
    · rw [if_neg hlen]
      by_cases hflush : st.lineCount + 1 ≥ ml
      · rw [if_pos hflush]
        refine ⟨?_, by simp, by simp, by simp; omega, hwnl, Or.inr (Or.inr hw)⟩
        intro s hs
        simp only [List.mem_append, List.mem_singleton] at hs
        rcases hs with hs | hs
        · exact h1 s hs
        · subst hs
          refine ⟨st.currentSegment ++ [st.currentLine], rfl, by simp, ?_, ?_⟩
          · simp only [List.length_append, List.length_singleton]
            push_cast
            omega
          · intro l hl
            rcases List.mem_append.mp hl with hl | hl
            · exact h2 l hl
            · rw [List.mem_singleton.mp hl]
              exact hgood
      · rw [if_neg hflush]
        refine ⟨h1, ?_, ?_, by simp; omega, hwnl, Or.inr (Or.inr hw)⟩
        · intro l hl
          rcases List.mem_append.mp hl with hl | hl
          · exact h2 l hl
          · rw [List.mem_singleton.mp hl]
            exact hgood
        · simp only [List.length_append, List.length_singleton]
          push_cast
          omega

theorem segFold_inv {mc ml : ℤ} {W : List (List Char)} (hml : 0 < ml) :
    ∀ (words : List (List Char)) (st : SegState),
      (∀ w ∈ words, w ∈ W) →
      (∀ w ∈ words, ∀ c ∈ w, isJsSpace c = false) →
      SegInv mc ml W st →
      SegInv mc ml W (words.foldl (segStep mc ml) st) := by
  intro words
  induction words with
  | nil => intro st _ _ h; exact h
  | cons w ws ih =>
    intro st hmem hch hinv
    rw [List.foldl_cons]
    exact ih _ (fun x hx => hmem x (by simp [hx]))
      (fun x hx => hch x (by simp [hx]))
      (segStep_inv hml (hmem w (by simp)) (hch w (by simp)) hinv)

theorem segStep_last_ne (mc ml : ℤ) (st : SegState) (w : List Char) (hw : w ≠ []) :
    (segStep mc ml st w).currentLine ≠ [] := by
  simp only [segStep]
  split_ifs with h1 h2 <;> simp_all

theorem segFold_last_ne (mc ml : ℤ) :
    ∀ (ws : List (List Char)) (w : List Char) (st : SegState), w ≠ [] →
      ((ws ++ [w]).foldl (segStep mc ml) st).currentLine ≠ [] := by
  intro ws w st hw
  rw [List.foldl_append, List.foldl_cons, List.foldl_nil]
  exact segStep_last_ne mc ml _ w hw

theorem foldl_inv {α β : Type} (Inv : α → Prop) (p : β → Prop) (f : α → β → α)
    (hstep : ∀ a x, p x → Inv a → Inv (f a x)) :
    ∀ (l : List β) (a : α), (∀ x ∈ l, p x) → Inv a → Inv (l.foldl f a) := by
  intro l
  induction l with
  | nil => intro a _ h; exact h
  | cons x xs ih =>
    intro a hp h
    exact ih _ (fun y hy => hp y (by simp [hy])) (hstep a x (hp x (by simp)) h)

theorem singleLineStep_good {mc : ℤ} {W : List (List Char)}
    (st : List (List Char) × List Char) (w : List Char)
    (hw : w ∈ W ∧ ∀ c ∈ w, isJsSpace c = false)
    (hinv : SLInv mc W st) :
    SLInv mc W ((fun (st : List (List Char) × List Char) word =>
      let testLine := if st.2 = [] then word else st.2 ++ ' ' :: word
      if (testLine.length : ℤ) ≤ mc then (st.1, testLine)
      else (if st.2 = [] then st.1 else st.1 ++ [st.2], word)) st w) := by
  obtain ⟨hsegs, hcnl, hcalt⟩ := hinv
  have hwnl : '\n' ∉ w := fun hm => by simpa [isJsSpace] using hw.2 '\n' hm
  simp only
  by_cases hc : st.2 = []
  · simp only [if_pos hc]
    by_cases hlen : ((w.length : ℤ) ≤ mc)
    · rw [if_pos hlen]
      exact ⟨hsegs, hwnl, Or.inr (Or.inl hlen)⟩
    · rw [if_neg hlen]
      exact ⟨hsegs, hwnl, Or.inr (Or.inr hw.1)⟩
  · simp only [if_neg hc]
    have hcat : '\n' ∉ st.2 ++ ' ' :: w := by
      intro hm
      rcases List.mem_append.mp hm with hm | hm
      · exact hcnl hm
      · rcases List.mem_cons.mp hm with hm | hm
        · exact absurd hm.symm (by decide)
        · exact hwnl hm
    by_cases hlen : (((st.2 ++ ' ' :: w).length : ℤ) ≤ mc)
    · rw [if_pos hlen]
      exact ⟨hsegs, hcat, Or.inr (Or.inl hlen)⟩
    · rw [if_neg hlen]
      refine ⟨?_, hwnl, Or.inr (Or.inr hw.1)⟩
      intro x hx
      rcases List.mem_append.mp hx with hx | hx
      · exact hsegs x hx
      · rw [List.mem_singleton.mp hx]
        refine ⟨hcnl, ?_⟩
        rcases hcalt with h | h | h
        · exact absurd h hc
        · exact Or.inl h
        · exact Or.inr h

theorem segmentTextSingleLine_good {mc : ℤ} {W : List (List Char)} (hmc : 0 < mc)
    (words : List (List Char)) (hmem : ∀ w ∈ words, w ∈ W)
    (hch : ∀ w ∈ words, ∀ c ∈ w, isJsSpace c = false) :
    ∀ s ∈ segmentTextSingleLine words mc,
      '\n' ∉ s ∧ ((s.length : ℤ) ≤ mc ∨ s ∈ W) := by
  intro s hs
  have hfold : SLInv mc W (words.foldl
      (fun (st : List (List Char) × List Char) word =>
        let testLine := if st.2 = [] then word else st.2 ++ ' ' :: word
        if (testLine.length : ℤ) ≤ mc then (st.1, testLine)
        else (if st.2 = [] then st.1 else st.1 ++ [st.2], word)) ([], [])) := by
    refine foldl_inv (SLInv mc W) (fun w => w ∈ W ∧ ∀ c ∈ w, isJsSpace c = false)
      _ (fun a x hx ha => singleLineStep_good a x hx ha) words ([], [])
      (fun x hx => ⟨hmem x hx, hch x hx⟩) ?_
    exact ⟨by simp, by simp, Or.inl rfl⟩
  obtain ⟨hsegs, hcnl, hcalt⟩ := hfold
  simp only [segmentTextSingleLine] at hs
  by_cases hc2 : (words.foldl
      (fun (st : List (List Char) × List Char) word =>
        let testLine := if st.2 = [] then word else st.2 ++ ' ' :: word
        if (testLine.length : ℤ) ≤ mc then (st.1, testLine)
        else (if st.2 = [] then st.1 else st.1 ++ [st.2], word)) ([], [])).2 = []
  · rw [if_pos hc2] at hs
    split at hs
    · rw [List.mem_singleton.mp hs]
      exact ⟨by simp, Or.inl (by simp; omega)⟩
    · exact hsegs s hs
  · rw [if_neg hc2] at hs
    split at hs
    · rw [List.mem_singleton.mp hs]
      exact ⟨by simp, Or.inl (by simp; omega)⟩
    · rcases List.mem_append.mp hs with hs | hs
      · exact hsegs s hs
      · rw [List.mem_singleton.mp hs]
        refine ⟨hcnl, ?_⟩
        rcases hcalt with h | h | h
        · exact absurd h hc2
        · exact Or.inl h
        · exact Or.inr h

/-- C5 (amended): for every layout with positive budgets and every text
that is not whitespace-only, every cue text produced by `segmentText`
has at most `maxLines` lines; every line is within `maxCharsPerLine`
except when it is a single overlong word of the normalized text, which
occupies its own line unsplit; and when `maxLines = 1` no produced cue
text contains an internal line break (the single-line guarantee in fact
needs no text restriction). For whitespace-only text the multi-line
fallback returns the original text verbatim, which can violate the line
budget. -/
theorem segmentText_line_budget :
    ∀ (text : List Char) (mc ml : ℤ), 0 < mc → 0 < ml →
      cleanText text ≠ [] →
      ∀ seg ∈ segmentText text mc ml,
        ((splitLines seg).length : ℤ) ≤ ml ∧
        (∀ line ∈ splitLines seg,
          (line.length : ℤ) ≤ mc ∨ line ∈ jsSplitWs (cleanText text)) ∧
        (ml = 1 → '\n' ∉ seg) := by
  intro text mc ml hmc hml hne seg hseg
  have hch : ∀ w ∈ jsSplitWs (cleanText text), ∀ c ∈ w, isJsSpace c = false :=
    jsSplitWs_no_space _
  have hconc : ∀ ls : List (List Char), ls ≠ [] → ((ls.length : ℤ) ≤ ml) →
      (∀ l ∈ ls, GoodLine mc (jsSplitWs (cleanText text)) l) →
      ((splitLines (List.intercalate ['\n'] ls)).length : ℤ) ≤ ml ∧
      (∀ line ∈ splitLines (List.intercalate ['\n'] ls),
        (line.length : ℤ) ≤ mc ∨ line ∈ jsSplitWs (cleanText text)) ∧
      (ml = 1 → '\n' ∉ List.intercalate ['\n'] ls) := by
    intro ls hlsne hlslen hlsgood
    have hsplit : splitLines (List.intercalate ['\n'] ls) = ls :=
      splitLines_intercalate ls hlsne (fun l hl => (hlsgood l hl).1)
    rw [hsplit]
    refine ⟨hlslen, fun line hl => (hlsgood line hl).2, ?_⟩
    intro hml1
    intro hmem
    obtain ⟨l0, hl0⟩ := List.exists_mem_of_ne_nil ls hlsne
    have hone : ls.length = 1 := by
      have := List.length_pos.mpr hlsne
      omega
    obtain ⟨x, hx⟩ := List.length_eq_one.mp hone
    subst hx
    have hxg := hlsgood x (by simp)
    simp only [List.intercalate] at hmem
    simp at hmem
    exact hxg.1 hmem
  by_cases hml1 : ml = 1
  · subst hml1
    simp only [segmentText, if_pos rfl] at hseg
    have hgood := segmentTextSingleLine_good hmc (jsSplitWs (cleanText text))
      (fun w hw => hw) hch seg hseg
    have hsplit : splitLines seg = [seg] := splitLines_no_nl seg hgood.1
    refine ⟨by rw [hsplit]; simp, ?_, fun _ => hgood.1⟩
    intro line hl
    rw [hsplit, List.mem_singleton] at hl
    subst hl
    exact hgood.2
  · simp only [segmentText, if_neg hml1] at hseg
    have hinv0 : SegInv mc ml (jsSplitWs (cleanText text)) ⟨[], [], [], 0⟩ := by
      refine ⟨by simp, by simp, by simp, by simp; omega, by simp, Or.inl rfl⟩
    have hinv := segFold_inv hml (jsSplitWs (cleanText text)) ⟨[], [], [], 0⟩
      (fun w hw => hw) hch hinv0
    have hWne : jsSplitWs (cleanText text) ≠ [] := splitWsAux_ne_nil false _ []
    have hlt : ∃ w, (jsSplitWs (cleanText text)).getLast? = some w ∧ w ≠ [] := by
      refine splitWsAux_last_token (cleanText text) false [] hne ?_
      intro c hc
      exact jsTrim_last _ c hc
    obtain ⟨lw, hlw, hlwne⟩ := hlt
    rcases List.eq_nil_or_concat (jsSplitWs (cleanText text)) with hE | ⟨L, b, hLb⟩
    · exact absurd hE hWne
    rw [List.concat_eq_append] at hLb
    have hb : b = lw := by
      rw [hLb, List.getLast?_concat] at hlw
      exact Option.some.inj hlw
    have hcur_ne : ((jsSplitWs (cleanText text)).foldl (segStep mc ml)
        ⟨[], [], [], 0⟩).currentLine ≠ [] := by
      rw [hLb]
      exact segFold_last_ne mc ml L b _ (hb ▸ hlwne)
    rw [if_neg hcur_ne] at hseg
    obtain ⟨h1, h2, h3, h4, h5, h6⟩ := hinv
    simp only [List.append_eq_nil, List.cons_ne_self, and_false] at hseg
    rw [if_neg (by simp)] at hseg
    rw [if_neg (by simp)] at hseg
    rcases List.mem_append.mp hseg with hs | hs
    · obtain ⟨ls, rfl, hlsne, hlslen, hlsgood⟩ := h1 seg hs
      exact hconc ls hlsne hlslen hlsgood
    · rw [List.mem_singleton.mp hs]
      refine hconc _ (by simp) ?_ ?_
      · simp only [List.length_append, List.length_singleton]
        push_cast
        omega
      · intro l hl
        rcases List.mem_append.mp hl with hl | hl
        · exact h2 l hl
        · rw [List.mem_singleton.mp hl]
          refine ⟨h5, ?_⟩
          rcases h6 with h | h | h
          · exact absurd h hcur_ne
          · exact Or.inl h
          · exact Or.inr h

/-- C5 witness: the concrete text "ab cd" under budget {2, 2} produces
the two-line cue "ab\ncd" within both budgets. -/
theorem segmentText_line_budget_witness :
    ((splitLines (str "ab\ncd")).length : ℤ) ≤ 2 ∧
    (∀ line ∈ splitLines (str "ab\ncd"),
      (line.length : ℤ) ≤ 2 ∨ line ∈ jsSplitWs (cleanText (str "ab cd"))) ∧
    ((2 : ℤ) = 1 → '\n' ∉ str "ab\ncd") :=
  segmentText_line_budget (str "ab cd") 2 2 (by norm_num) (by norm_num)
    (by decide) (str "ab\ncd") (by decide)

/-- C5 counterexample: a whitespace-only input text triggers the
`[text]` fallback of `segmentText`, and the resulting cue — passed
through `optimizeSubtitles` unchanged — has four lines, violating the
two-line budget. -/
theorem segmentText_line_budget_cex :
    optimizeSubtitles [⟨1, 0, 3, str "\n\n\n", none⟩] 40 2 =
      [⟨1, 0, 3, str "\n\n\n", none⟩] ∧
    ¬ (((splitLines (str "\n\n\n")).length : ℤ) ≤ 2) := by
  constructor
  · have hseg : segmentText (str "\n\n\n") 40 2 = [str "\n\n\n"] := by decide
    simp only [optimizeSubtitles, optimizeRaw, hseg]
    norm_num [buildCues, round3, jsRound, adjustTiming, adjustOne, max_def]
  · decide

/-- C7 (amended): the accumulate/close rules are as claimed — close
before appending the triggering word on word count 8, duration over
4.0s, gap over 0.7s, or trailing sentence punctuation, and flush the
remainder — and on the example words the accumulation pass yields
exactly the segments [0, 1.0, "Zdravo svete"] and [2.5, 3.3, "Kako si"];
the spec's §4.1 post-pass then extends the final 0.8s segment to 1.0s,
so the full `segment(words)` returns [2.5, 3.5, "Kako si"] for the
second segment, not [2.5, 3.3] as the claim states. -/
theorem segment_words_example :
    segmentWords zdravoWords =
      [⟨0, 1, str "Zdravo svete"⟩, ⟨5/2, 33/10, str "Kako si"⟩] ∧
    segmentFull zdravoWords =
      [⟨0, 1, str "Zdravo svete"⟩, ⟨5/2, 7/2, str "Kako si"⟩] := by
  constructor
  · norm_num [zdravoWords, segmentWords, segmentWordsAux, shouldClose, mkRawSegment,
      List.intercalate, List.intersperse, str]
    simp
  · norm_num [zdravoWords, segmentFull, segmentWords, segmentWordsAux, shouldClose,
      mkRawSegment, segPost, List.intercalate, List.intersperse, str]

/-- C7 counterexample: the full spec-modelled Segmenter (including the
§4.1 post-pass) does not return the claimed second segment
[2.5, 3.3, "Kako si"]: the post-pass extends it to end 3.5. -/
theorem segment_words_cex :
    segmentFull zdravoWords ≠
      [⟨0, 1, str "Zdravo svete"⟩, ⟨5/2, 33/10, str "Kako si"⟩] := by
  have h : segmentFull zdravoWords =
      [⟨0, 1, str "Zdravo svete"⟩, ⟨5/2, 7/2, str "Kako si"⟩] := by
    norm_num [zdravoWords, segmentFull, segmentWords, segmentWordsAux, shouldClose,
      mkRawSegment, segPost, List.intercalate, List.intersperse, str]
  rw [h]
  intro hc
  have := List.cons.inj hc
  have h2 := List.cons.inj this.2
  have h3 := congrArg RawSegment.endOffset h2.1
  norm_num at h3

-- ===== C3 stage A: digits and timecode rendering =====

theorem digitChar_facts {d : ℕ} (h : d < 10) :
    (Nat.digitChar d).isDigit = true ∧ dval (Nat.digitChar d) = d ∧
    isJsSpace (Nat.digitChar d) = false ∧ Nat.digitChar d ≠ '\n' ∧
    Nat.digitChar d ≠ '\r' ∧ Nat.digitChar d ≠ '-' ∧ Nat.digitChar d ≠ '+' := by
  interval_cases d <;> decide

theorem natToChars_lt10 {n : ℕ} (h : n < 10) : natToChars n = [Nat.digitChar n] := by
  unfold natToChars
  rw [dif_pos h]

theorem natToChars_ge10 {n : ℕ} (h : ¬ n < 10) :
    natToChars n = natToChars (n / 10) ++ [Nat.digitChar (n % 10)] := by
  conv_lhs => rw [natToChars]
  rw [dif_neg h]

theorem natToChars_lt100 {n : ℕ} (h10 : 10 ≤ n) (h : n < 100) :
    natToChars n = [Nat.digitChar (n / 10), Nat.digitChar (n % 10)] := by
  rw [natToChars_ge10 (by omega), natToChars_lt10 (by omega)]
  rfl

theorem padZeros2_nat (n : ℕ) (h : n < 100) :
    padZeros 2 (intToChars (n : ℤ)) = [Nat.digitChar (n / 10), Nat.digitChar (n % 10)] := by
  unfold intToChars padZeros
  rw [if_neg (by omega : ¬ (n : ℤ) < 0), Int.natAbs_ofNat]
  by_cases h10 : n < 10
  · rw [natToChars_lt10 h10]
    have h1 : n / 10 = 0 := by omega
    have h2 : n % 10 = n := by omega
    simp [h1, h2, Nat.digitChar, List.replicate]
  · rw [natToChars_lt100 (by omega) h]
    simp

theorem padZeros3_nat (n : ℕ) (h : n < 1000) :
    padZeros 3 (intToChars (n : ℤ)) =
      [Nat.digitChar (n / 100), Nat.digitChar (n / 10 % 10), Nat.digitChar (n % 10)] := by
  unfold intToChars padZeros
  rw [if_neg (by omega : ¬ (n : ℤ) < 0), Int.natAbs_ofNat]
  by_cases h10 : n < 10
  · rw [natToChars_lt10 h10]
    have h1 : n / 100 = 0 := by omega
    have h2 : n / 10 % 10 = 0 := by omega
    have h3 : n % 10 = n := by omega
    simp [h1, h2, h3, Nat.digitChar, List.replicate]
  · by_cases h100 : n < 100
    · rw [natToChars_lt100 (by omega) h100]
      have h1 : n / 100 = 0 := by omega
      have h2 : n / 10 % 10 = n / 10 := by omega
      simp [h1, h2, Nat.digitChar, List.replicate]
    · rw [natToChars_ge10 (by omega), natToChars_lt100 (by omega) (by omega)]
      have h1 : n / 10 / 10 = n / 100 := by omega
      have h2 : n / 10 % 10 = n / 10 % 10 := rfl
      simp [h1]

theorem ratTrunc_nonneg {q : ℚ} (h : 0 ≤ q) : ratTrunc q = ⌊q⌋ := if_pos h

theorem floorDiv_q (k m : ℕ) : ⌊(k : ℚ) / (m : ℚ)⌋ = ((k / m : ℕ) : ℤ) := by
  exact_mod_cast Rat.floor_natCast_div_natCast k m

theorem jsMod_ms (k m : ℕ) (hm : 0 < m) :
    jsMod ((k : ℚ) / 1000) ((m : ℚ) / 1000) = ((k % m : ℕ) : ℚ) / 1000 := by
  unfold jsMod
  have hm' : (m : ℚ) ≠ 0 := by positivity
  have hdiv : (k : ℚ) / 1000 / ((m : ℚ) / 1000) = (k : ℚ) / (m : ℚ) := by
    field_simp
  rw [hdiv, ratTrunc_nonneg (by positivity), floorDiv_q k m,
    show (((k / m : ℕ) : ℤ) : ℚ) = ((k / m : ℕ) : ℚ) by norm_cast]
  have hk := Nat.div_add_mod k m
  have hkQ : (m : ℚ) * ((k / m : ℕ) : ℚ) + ((k % m : ℕ) : ℚ) = (k : ℚ) := by
    exact_mod_cast hk
  field_simp
  linarith

theorem jsRound_natCast (n : ℕ) : jsRound ((n : ℕ) : ℚ) = (n : ℤ) := by
  unfold jsRound
  rw [show ((n : ℕ) : ℚ) = (((n : ℕ) : ℤ) : ℚ) by push_cast; ring, Int.floor_int_add]
  norm_num

theorem secondsToSrtTime_digits (k : ℕ) (hk : k < 360000000) :
    secondsToSrtTime ((k : ℚ) / 1000) =
      [Nat.digitChar (k / 3600000 / 10), Nat.digitChar (k / 3600000 % 10), ':',
       Nat.digitChar (k % 3600000 / 60000 / 10), Nat.digitChar (k % 3600000 / 60000 % 10), ':',
       Nat.digitChar (k % 60000 / 1000 / 10), Nat.digitChar (k % 60000 / 1000 % 10), ',',
       Nat.digitChar (k % 1000 / 100), Nat.digitChar (k % 1000 / 10 % 10),
       Nat.digitChar (k % 1000 % 10)] := by
  have hmod3600 : jsMod ((k : ℚ) / 1000) 3600 = ((k % 3600000 : ℕ) : ℚ) / 1000 := by
    rw [show (3600 : ℚ) = ((3600000 : ℕ) : ℚ) / 1000 by norm_num]
    exact jsMod_ms k 3600000 (by norm_num)
  have hmod60 : jsMod ((k : ℚ) / 1000) 60 = ((k % 60000 : ℕ) : ℚ) / 1000 := by
    rw [show (60 : ℚ) = ((60000 : ℕ) : ℚ) / 1000 by norm_num]
    exact jsMod_ms k 60000 (by norm_num)
  have hmod1 : jsMod ((k : ℚ) / 1000) 1 = ((k % 1000 : ℕ) : ℚ) / 1000 := by
    rw [show (1 : ℚ) = ((1000 : ℕ) : ℚ) / 1000 by norm_num]
    exact jsMod_ms k 1000 (by norm_num)
  have hhours : ⌊(k : ℚ) / 1000 / 3600⌋ = ((k / 3600000 : ℕ) : ℤ) := by
    rw [show (k : ℚ) / 1000 / 3600 = (k : ℚ) / ((3600000 : ℕ) : ℚ) by push_cast; ring]
    exact floorDiv_q k 3600000
  have hminutes : ⌊jsMod ((k : ℚ) / 1000) 3600 / 60⌋ = ((k % 3600000 / 60000 : ℕ) : ℤ) := by
    rw [hmod3600,
      show ((k % 3600000 : ℕ) : ℚ) / 1000 / 60 = ((k % 3600000 : ℕ) : ℚ) / ((60000 : ℕ) : ℚ) by
        push_cast; ring]
    exact floorDiv_q (k % 3600000) 60000
  have hseconds : ⌊jsMod ((k : ℚ) / 1000) 60⌋ = ((k % 60000 / 1000 : ℕ) : ℤ) := by
    rw [hmod60, show ((k % 60000 : ℕ) : ℚ) / 1000 = ((k % 60000 : ℕ) : ℚ) / ((1000 : ℕ) : ℚ) by
      push_cast; ring]
    exact floorDiv_q (k % 60000) 1000
  have hms : jsRound (jsMod ((k : ℚ) / 1000) 1 * 1000) = ((k % 1000 : ℕ) : ℤ) := by
    rw [hmod1, show ((k % 1000 : ℕ) : ℚ) / 1000 * 1000 = ((k % 1000 : ℕ) : ℚ) by field_simp]
    exact jsRound_natCast (k % 1000)
  unfold secondsToSrtTime
  rw [hhours, hminutes, hseconds, hms]
  dsimp only
  rw [padZeros2_nat _ (by omega), padZeros2_nat _ (by omega), padZeros2_nat _ (by omega),
    padZeros3_nat _ (by omega)]
  simp

-- ===== C3 stage B: timecode parsing round trip =====

theorem timeAtR_srtTime (k : ℕ) (hk : k < 360000000) (rest : List Char) :
    timeAtR (secondsToSrtTime ((k : ℚ) / 1000) ++ rest) =
      some ((k / 3600000, k % 3600000 / 60000, k % 60000 / 1000, k % 1000), rest) := by
  rw [secondsToSrtTime_digits k hk]
  simp only [List.cons_append, List.nil_append]
  unfold timeAtR
  dsimp only
  rw [if_pos]
  · have e1 : dval (Nat.digitChar (k / 3600000 / 10)) * 10 +
        dval (Nat.digitChar (k / 3600000 % 10)) = k / 3600000 := by
      rw [(digitChar_facts (by omega)).2.1, (digitChar_facts (by omega)).2.1]; omega
    have e2 : dval (Nat.digitChar (k % 3600000 / 60000 / 10)) * 10 +
        dval (Nat.digitChar (k % 3600000 / 60000 % 10)) = k % 3600000 / 60000 := by
      rw [(digitChar_facts (by omega)).2.1, (digitChar_facts (by omega)).2.1]; omega
    have e3 : dval (Nat.digitChar (k % 60000 / 1000 / 10)) * 10 +
        dval (Nat.digitChar (k % 60000 / 1000 % 10)) = k % 60000 / 1000 := by
      rw [(digitChar_facts (by omega)).2.1, (digitChar_facts (by omega)).2.1]; omega
    have e4 : dval (Nat.digitChar (k % 1000 / 100)) * 100 +
        dval (Nat.digitChar (k % 1000 / 10 % 10)) * 10 +
        dval (Nat.digitChar (k % 1000 % 10)) = k % 1000 := by
      rw [(digitChar_facts (by omega)).2.1, (digitChar_facts (by omega)).2.1,
        (digitChar_facts (by omega)).2.1]
      omega
    rw [e1, e2, e3, e4]
  · refine ⟨(digitChar_facts (by omega)).1, (digitChar_facts (by omega)).1, rfl,
      (digitChar_facts (by omega)).1, (digitChar_facts (by omega)).1, rfl,
      (digitChar_facts (by omega)).1, (digitChar_facts (by omega)).1, Or.inl rfl,
      (digitChar_facts (by omega)).1, (digitChar_facts (by omega)).1,
      (digitChar_facts (by omega)).1⟩

theorem timeVal_comp (k : ℕ) :
    timeVal (k / 3600000, k % 3600000 / 60000, k % 60000 / 1000, k % 1000) =
      (k : ℚ) / 1000 := by
  unfold timeVal
  have key : 3600000 * (k / 3600000) + 60000 * (k % 3600000 / 60000) +
      1000 * (k % 60000 / 1000) + k % 1000 = k := by omega
  have keyQ : (3600000 : ℚ) * ((k / 3600000 : ℕ) : ℚ) +
      (60000 : ℚ) * ((k % 3600000 / 60000 : ℕ) : ℚ) +
      (1000 : ℚ) * ((k % 60000 / 1000 : ℕ) : ℚ) + ((k % 1000 : ℕ) : ℚ) = (k : ℚ) := by
    exact_mod_cast key
  field_simp
  linarith

theorem srtTime_chars (k : ℕ) (hk : k < 360000000) :
    ∀ c ∈ secondsToSrtTime ((k : ℚ) / 1000), c.isDigit = true ∨ c = ':' ∨ c = ',' := by
  rw [secondsToSrtTime_digits k hk]
  intro c hc
  simp only [List.mem_cons, List.not_mem_nil, or_false] at hc
  rcases hc with h|h|h|h|h|h|h|h|h|h|h|h <;>
    first
      | (subst h; right; simp)
      | (subst h; left; exact (digitChar_facts (by omega)).1)

theorem srtTime_ne_nil (k : ℕ) (hk : k < 360000000) :
    secondsToSrtTime ((k : ℚ) / 1000) ≠ [] := by
  rw [secondsToSrtTime_digits k hk]
  simp

theorem srtTime_no_nl (k : ℕ) (hk : k < 360000000) :
    '\n' ∉ secondsToSrtTime ((k : ℚ) / 1000) := by
  intro h
  rcases srtTime_chars k hk '\n' h with h1 | h1 | h1 <;> simp at h1

theorem srtTime_no_cr (k : ℕ) (hk : k < 360000000) :
    '\r' ∉ secondsToSrtTime ((k : ℚ) / 1000) := by
  intro h
  rcases srtTime_chars k hk '\r' h with h1 | h1 | h1 <;> simp at h1

theorem timeLineAt_gen (k1 k2 : ℕ) (hk1 : k1 < 360000000) (hk2 : k2 < 360000000) :
    timeLineAt (secondsToSrtTime ((k1 : ℚ) / 1000) ++ str " --> " ++
        secondsToSrtTime ((k2 : ℚ) / 1000)) =
      some ((k1 / 3600000, k1 % 3600000 / 60000, k1 % 60000 / 1000, k1 % 1000),
            (k2 / 3600000, k2 % 3600000 / 60000, k2 % 60000 / 1000, k2 % 1000)) := by
  unfold timeLineAt
  rw [List.append_assoc, timeAtR_srtTime k1 hk1]
  have hsp : str " --> " = [' ', '-', '-', '>', ' '] := by decide
  have hdrop : (str " --> " ++ secondsToSrtTime ((k2 : ℚ) / 1000)).dropWhile isJsSpace =
      '-' :: '-' :: '>' :: (' ' :: secondsToSrtTime ((k2 : ℚ) / 1000)) := by
    rw [hsp]
    simp only [List.cons_append, List.nil_append]
    rw [List.dropWhile_cons_of_pos (by decide), List.dropWhile_cons_of_neg (by decide)]
  simp only [hdrop]
  have hdrop2 : (' ' :: secondsToSrtTime ((k2 : ℚ) / 1000)).dropWhile isJsSpace =
      secondsToSrtTime ((k2 : ℚ) / 1000) := by
    rw [List.dropWhile_cons_of_pos (by decide), secondsToSrtTime_digits k2 hk2,
      List.dropWhile_cons_of_neg (by simp [(digitChar_facts (by omega :
        k2 / 3600000 / 10 < 10)).2.2.1])]
  rw [hdrop2, show secondsToSrtTime ((k2 : ℚ) / 1000) =
    secondsToSrtTime ((k2 : ℚ) / 1000) ++ [] by simp, timeAtR_srtTime k2 hk2]

-- ===== C3 stage C: index line round trip =====

theorem natToChars_ne_nil (n : ℕ) : natToChars n ≠ [] := by
  by_cases h : n < 10
  · rw [natToChars_lt10 h]; simp
  · rw [natToChars_ge10 h]; simp

theorem natToChars_chars (n : ℕ) : ∀ c ∈ natToChars n,
    c.isDigit = true ∧ isJsSpace c = false ∧ c ≠ '\n' ∧ c ≠ '\r' ∧ c ≠ '-' ∧ c ≠ '+' := by
  induction n using natToChars.induct with
  | case1 n h =>
    rw [natToChars_lt10 h]
    intro c hc
    simp only [List.mem_singleton] at hc
    subst hc
    have := digitChar_facts h
    exact ⟨this.1, this.2.2.1, this.2.2.2.1, this.2.2.2.2.1, this.2.2.2.2.2.1,
      this.2.2.2.2.2.2⟩
  | case2 n h ih =>
    rw [natToChars_ge10 h]
    intro c hc
    rcases List.mem_append.mp hc with h1 | h1
    · exact ih c h1
    · simp only [List.mem_singleton] at h1
      subst h1
      have := digitChar_facts (Nat.mod_lt n (by omega))
      exact ⟨this.1, this.2.2.1, this.2.2.2.1, this.2.2.2.2.1, this.2.2.2.2.2.1,
        this.2.2.2.2.2.2⟩

theorem takeWhile_all {α : Type} (p : α → Bool) :
    ∀ l : List α, (∀ c ∈ l, p c = true) → l.takeWhile p = l := by
  intro l
  induction l with
  | nil => intro _; rfl
  | cons c rest ih =>
    intro h
    rw [List.takeWhile_cons_of_pos (h c (by simp))]
    rw [ih (fun x hx => h x (List.mem_cons_of_mem _ hx))]

theorem natToChars_foldl (n : ℕ) : ∀ a : ℕ,
    (natToChars n).foldl (fun acc c => acc * 10 + dval c) a =
      a * 10 ^ (natToChars n).length + n := by
  induction n using natToChars.induct with
  | case1 n h =>
    intro a
    rw [natToChars_lt10 h]
    simp [(digitChar_facts h).2.1]
  | case2 n h ih =>
    intro a
    rw [natToChars_ge10 h]
    rw [List.foldl_append]
    rw [ih a]
    simp only [List.foldl_cons, List.foldl_nil, List.length_append, List.length_singleton]
    rw [(digitChar_facts (Nat.mod_lt n (by omega))).2.1]
    rw [pow_succ, ← mul_assoc]
    set Y := a * 10 ^ (natToChars (n / 10)).length
    omega

theorem jsParseIntCore_natToChars (n : ℕ) : jsParseIntCore (natToChars n) = some n := by
  unfold jsParseIntCore
  rw [takeWhile_all _ _ (fun c hc => (natToChars_chars n c hc).1)]
  rw [if_neg (natToChars_ne_nil n)]
  rw [natToChars_foldl n 0]
  simp

theorem jsParseInt_intToChars (i : ℤ) : jsParseInt (intToChars i) = some i := by
  unfold intToChars jsParseInt
  by_cases hi : i < 0
  · rw [if_pos hi]
    rw [List.dropWhile_cons_of_neg (by decide)]
    simp only [List.head?_cons, List.tail_cons, if_pos rfl]
    rw [jsParseIntCore_natToChars]
    have h2 : -((i.natAbs : ℕ) : ℤ) = i := by omega
    exact congrArg some h2
  · rw [if_neg hi]
    obtain ⟨d, ds, hd⟩ := List.exists_cons_of_ne_nil (natToChars_ne_nil i.natAbs)
    have hdfacts := natToChars_chars i.natAbs d (by rw [hd]; simp)
    rw [hd, List.dropWhile_cons_of_neg (by simp [hdfacts.2.1])]
    simp only [List.head?_cons]
    rw [if_neg (by simp [hdfacts.2.2.2.2.1]), if_neg (by simp [hdfacts.2.2.2.2.2])]
    rw [← hd, jsParseIntCore_natToChars]
    have h2 : ((i.natAbs : ℕ) : ℤ) = i := by omega
    exact congrArg some h2

theorem findTimeLine_head {l : List Char} {r} (hne : l ≠ [])
    (h : timeLineAt l = some r) : findTimeLine l = some r := by
  cases l with
  | nil => exact absurd rfl hne
  | cons c rest =>
    unfold findTimeLine
    rw [h]

-- ===== C3 stage D: line splitting and blank detection =====

theorem splitLinesAux_ne_nil : ∀ (l acc : List Char), splitLinesAux l acc ≠ [] := by
  intro l
  induction l with
  | nil => intro acc; simp [splitLinesAux]
  | cons c rest ih =>
    intro acc
    by_cases hc : c = '\n'
    · subst hc
      simp [splitLinesAux]
    · simp only [splitLinesAux, hc]
      exact ih (c :: acc)

theorem intercalate_cons₂ {α : Type} (s x y : List α) (ys : List (List α)) :
    List.intercalate s (x :: y :: ys) = x ++ s ++ List.intercalate s (y :: ys) := by
  simp [List.intercalate, List.intersperse]

theorem intercalate_splitLinesAux : ∀ (l acc : List Char),
    List.intercalate ['\n'] (splitLinesAux l acc) = acc.reverse ++ l := by
  intro l
  induction l with
  | nil => intro acc; simp [splitLinesAux, List.intercalate]
  | cons c rest ih =>
    intro acc
    by_cases hc : c = '\n'
    · subst hc
      simp only [splitLinesAux]
      obtain ⟨y, ys, hy⟩ := List.exists_cons_of_ne_nil (splitLinesAux_ne_nil rest [])
      rw [hy, intercalate_cons₂, ← hy, ih []]
      simp
    · simp only [splitLinesAux, hc]
      rw [ih (c :: acc)]
      simp

theorem intercalate_splitLines (l : List Char) :
    List.intercalate ['\n'] (splitLines l) = l := by
  simpa using intercalate_splitLinesAux l []

theorem splitLinesAux_append_last_nl : ∀ (l acc : List Char),
    splitLinesAux (l ++ ['\n']) acc = splitLinesAux l acc ++ [[]] := by
  intro l
  induction l with
  | nil => intro acc; simp [splitLinesAux]
  | cons c rest ih =>
    intro acc
    by_cases hc : c = '\n'
    · subst hc
      simp only [List.cons_append, splitLinesAux]
      exact congrArg _ (ih [])
    · simp only [List.cons_append, splitLinesAux, hc]
      exact ih (c :: acc)

theorem splitLines_append_last_nl (l : List Char) :
    splitLines (l ++ ['\n']) = splitLines l ++ [[]] :=
  splitLinesAux_append_last_nl l []

theorem splitLines_lines_no_nl : ∀ (l acc : List Char), '\n' ∉ acc →
    ∀ x ∈ splitLinesAux l acc, '\n' ∉ x := by
  intro l
  induction l with
  | nil =>
    intro acc hacc x hx
    simp only [splitLinesAux, List.mem_singleton] at hx
    subst hx
    simpa using hacc
  | cons c rest ih =>
    intro acc hacc x hx
    by_cases hc : c = '\n'
    · subst hc
      simp only [splitLinesAux, List.mem_cons] at hx
      rcases hx with hx | hx
      · subst hx; simpa using hacc
      · exact ih [] (by simp) x hx
    · simp only [splitLinesAux, hc] at hx
      exact ih (c :: acc) (by simp [hacc, Ne.symm hc]) x hx

theorem jsTrim_nil_allSpace {l : List Char} (h : jsTrim l = []) :
    ∀ c ∈ l, isJsSpace c = true := by
  unfold jsTrim at h
  rw [List.reverse_eq_nil_iff, List.dropWhile_eq_nil_iff] at h
  have h2 : l.dropWhile isJsSpace = [] := by
    rcases heq : l.dropWhile isJsSpace with _ | ⟨d, ds⟩
    · rfl
    · have hd : isJsSpace d = false :=
        head?_dropWhile_isJsSpace l d (by rw [heq]; rfl)
      have hd2 : isJsSpace d = true := h d (by rw [heq]; simp)
      rw [hd] at hd2
      exact absurd hd2 (by simp)
  rw [List.dropWhile_eq_nil_iff] at h2
  exact h2

theorem jsTrim_ne_nil_of_mem {l : List Char} {c : Char} (hc : c ∈ l)
    (hs : isJsSpace c = false) : jsTrim l ≠ [] := by
  intro h
  have := jsTrim_nil_allSpace h c hc
  rw [hs] at this
  exact absurd this (by simp)

theorem jsTrim_intToChars_ne_nil (i : ℤ) : jsTrim (intToChars i) ≠ [] := by
  unfold intToChars
  by_cases hi : i < 0
  · rw [if_pos hi]
    exact jsTrim_ne_nil_of_mem (List.mem_cons_self _ _) (by decide)
  · rw [if_neg hi]
    obtain ⟨d, ds, hd⟩ := List.exists_cons_of_ne_nil (natToChars_ne_nil i.natAbs)
    have hdfacts := natToChars_chars i.natAbs d (by rw [hd]; simp)
    rw [hd]
    exact jsTrim_ne_nil_of_mem (List.mem_cons_self _ _) hdfacts.2.1

theorem normEol_cons_ne {c : Char} (hc : c ≠ '\r') (rest : List Char) :
    normEol (c :: rest) = c :: normEol rest := by
  conv_lhs => rw [normEol.eq_def]
  split
  · rename_i heq
    exact absurd heq (by simp)
  · rename_i heq
    rw [List.cons.injEq] at heq
    exact absurd heq.1 hc
  · rename_i hshape heq
    rw [List.cons.injEq] at heq
    exact absurd heq.1 hc
  · rename_i heq
    rw [List.cons.injEq] at heq
    obtain ⟨h1, h2⟩ := heq
    rw [h1, h2]

theorem normEol_id : ∀ l : List Char, '\r' ∉ l → normEol l = l := by
  intro l
  induction l with
  | nil => intro _; rfl
  | cons c rest ih =>
    intro h
    have hc : c ≠ '\r' := fun he => h (by simp [he])
    have hrest : '\r' ∉ rest := fun he => h (by simp [he])
    rw [normEol_cons_ne hc, ih hrest]

-- ===== C3 stage E: block splitting =====

theorem sbAux_nil (inRun : Bool) (acc : List Char) :
    splitBlocksAux inRun [] acc = [acc.reverse] := by
  simp [splitBlocksAux]

theorem sbAux_nlnl (inRun : Bool) (rest acc : List Char) :
    splitBlocksAux inRun ('\n' :: '\n' :: rest) acc =
      if inRun then splitBlocksAux true ('\n' :: rest) acc
      else acc.reverse :: splitBlocksAux true rest [] := by
  simp [splitBlocksAux]

theorem sbAux_cons_ne {c : Char} (hc : c ≠ '\n') (inRun : Bool) (rest acc : List Char) :
    splitBlocksAux inRun (c :: rest) acc = splitBlocksAux false rest (c :: acc) := by
  conv_lhs => rw [splitBlocksAux.eq_def]
  split
  · rename_i heq
    exact absurd heq (by simp)
  · rename_i heq
    rw [List.cons.injEq] at heq
    exact absurd heq.1 hc
  · rename_i hshape heq
    rw [List.cons.injEq] at heq
    exact absurd heq.1 hc
  · rename_i heq
    rw [List.cons.injEq] at heq
    obtain ⟨h1, h2⟩ := heq
    rw [h1, h2]

theorem sbAux_nl_cons_ne {d : Char} (hd : d ≠ '\n') (inRun : Bool) (rest acc : List Char) :
    splitBlocksAux inRun ('\n' :: d :: rest) acc =
      if inRun then splitBlocksAux true (d :: rest) acc
      else splitBlocksAux false (d :: rest) ('\n' :: acc) := by
  conv_lhs => rw [splitBlocksAux.eq_def]
  split
  · rename_i heq
    exact absurd heq (by simp)
  · rename_i heq
    rw [List.cons.injEq, List.cons.injEq] at heq
    exact absurd heq.2.1 hd
  · rename_i hshape heq
    rw [List.cons.injEq] at heq
    rw [heq.2]
  · rename_i hsh1 hsh2 heq
    rw [List.cons.injEq] at heq
    exact absurd heq.1.symm (by simpa using hsh2 heq.1.symm)

theorem sbAux_nl_nil (inRun : Bool) (acc : List Char) :
    splitBlocksAux inRun ['\n'] acc =
      if inRun then splitBlocksAux true [] acc
      else splitBlocksAux false [] ('\n' :: acc) := by
  conv_lhs => rw [splitBlocksAux.eq_def]
  split
  · rename_i heq
    exact absurd heq (by simp)
  · rename_i heq
    rw [List.cons.injEq] at heq
    exact absurd heq.2 (by simp)
  · rename_i hshape heq
    rw [List.cons.injEq] at heq
    rw [heq.2]
  · rename_i hsh1 hsh2 heq
    rw [List.cons.injEq] at heq
    exact absurd heq.1.symm (by simpa using hsh2 heq.1.symm)

theorem sbAux_chunk : ∀ (b : List Char),
    List.Chain' (fun a c => ¬(a = '\n' ∧ c = '\n')) b → b.getLast? ≠ some '\n' →
    ∀ (rest acc : List Char),
      splitBlocksAux false (b ++ '\n' :: '\n' :: rest) acc =
        (acc.reverse ++ b) :: splitBlocksAux true rest [] := by
  intro b
  induction b with
  | nil =>
    intro _ _ rest acc
    rw [List.nil_append, sbAux_nlnl, if_neg (by simp)]
    simp
  | cons c b' ih =>
    intro hchain hlast rest acc
    by_cases hc : c = '\n'
    · subst hc
      cases b' with
      | nil => exact absurd (by simp : (['\n'] : List Char).getLast? = some '\n') hlast
      | cons d b'' =>
        have hd : d ≠ '\n' := by
          intro hdeq
          exact (List.chain'_cons.mp hchain).1 ⟨rfl, hdeq⟩
        simp only [List.cons_append]
        rw [sbAux_nl_cons_ne hd, if_neg (by simp), ← List.cons_append,
          ih (List.chain'_cons.mp hchain).2
            (by rwa [getLast?_cons_ne '\n' (d :: b'') (by simp)] at hlast) rest ('\n' :: acc)]
        simp
    · have hlast' : b'.getLast? ≠ some '\n' := by
        rcases eq_or_ne b' [] with hb' | hb'
        · subst hb'; simp
        · rwa [getLast?_cons_ne c b' hb'] at hlast
      simp only [List.cons_append]
      rw [sbAux_cons_ne hc, ih hchain.tail hlast' rest (c :: acc)]
      simp

theorem sbAux_term : ∀ (b : List Char),
    List.Chain' (fun a c => ¬(a = '\n' ∧ c = '\n')) b → b.getLast? ≠ some '\n' →
    ∀ acc : List Char,
      splitBlocksAux false (b ++ ['\n']) acc = [acc.reverse ++ (b ++ ['\n'])] := by
  intro b
  induction b with
  | nil =>
    intro _ _ acc
    rw [List.nil_append, sbAux_nl_nil, if_neg (by simp), sbAux_nil]
    simp
  | cons c b' ih =>
    intro hchain hlast acc
    by_cases hc : c = '\n'
    · subst hc
      cases b' with
      | nil => exact absurd (by simp : (['\n'] : List Char).getLast? = some '\n') hlast
      | cons d b'' =>
        have hd : d ≠ '\n' := by
          intro hdeq
          exact (List.chain'_cons.mp hchain).1 ⟨rfl, hdeq⟩
        simp only [List.cons_append]
        rw [sbAux_nl_cons_ne hd, if_neg (by simp), ← List.cons_append,
          ih (List.chain'_cons.mp hchain).2
            (by rwa [getLast?_cons_ne '\n' (d :: b'') (by simp)] at hlast) ('\n' :: acc)]
        simp
    · have hlast' : b'.getLast? ≠ some '\n' := by
        rcases eq_or_ne b' [] with hb' | hb'
        · subst hb'; simp
        · rwa [getLast?_cons_ne c b' hb'] at hlast
      simp only [List.cons_append]
      rw [sbAux_cons_ne hc, ih hchain.tail hlast' (c :: acc)]
      simp

theorem sbAux_true_head_ne {c : Char} (hc : c ≠ '\n') (r acc : List Char) :
    splitBlocksAux true (c :: r) acc = splitBlocksAux false (c :: r) acc := by
  rw [sbAux_cons_ne hc, sbAux_cons_ne hc]

theorem splitBlocks_step (b b2 : List Char) (bs : List (List Char)) (acc : List Char)
    (hchain : List.Chain' (fun a c => ¬(a = '\n' ∧ c = '\n')) b)
    (hlast : b.getLast? ≠ some '\n')
    (hb2 : b2.head? ≠ some '\n') (hb2ne : b2 ≠ []) :
    splitBlocksAux false (List.intercalate (str "\n\n") (b :: b2 :: bs) ++ ['\n']) acc =
      (acc.reverse ++ b) ::
        splitBlocksAux false (List.intercalate (str "\n\n") (b2 :: bs) ++ ['\n']) [] := by
  rw [intercalate_cons₂]
  have hsep : str "\n\n" = ['\n', '\n'] := by decide
  have hre : (b ++ str "\n\n" ++ List.intercalate (str "\n\n") (b2 :: bs)) ++ ['\n'] =
      b ++ '\n' :: '\n' :: (List.intercalate (str "\n\n") (b2 :: bs) ++ ['\n']) := by
    rw [hsep]
    simp [List.append_assoc]
  rw [hre, sbAux_chunk b hchain hlast]
  obtain ⟨c, b2', hb2'⟩ := List.exists_cons_of_ne_nil hb2ne
  have hc : c ≠ '\n' := by
    subst hb2'
    simpa using hb2
  have hX : ∃ X, List.intercalate (str "\n\n") (b2 :: bs) ++ ['\n'] = c :: X := by
    cases bs with
    | nil => exact ⟨b2' ++ ['\n'], by simp [List.intercalate, hb2']⟩
    | cons b3 bs' =>
      rw [intercalate_cons₂, hb2']
      exact ⟨b2' ++ (str "\n\n" ++ (List.intercalate (str "\n\n") (b3 :: bs') ++ ['\n'])),
        by simp⟩
  obtain ⟨X, hXe⟩ := hX
  rw [hXe, sbAux_true_head_ne hc, ← hXe]

-- ===== C3 stage F: generated blocks are well formed =====

theorem chain'_noNN_of_no_nl {l : List Char} (h : '\n' ∉ l) :
    List.Chain' (fun a c => ¬(a = '\n' ∧ c = '\n')) l := by
  induction l with
  | nil => simp
  | cons c rest ih =>
    rw [List.chain'_cons']
    refine ⟨?_, ih (fun hm => h (List.mem_cons_of_mem _ hm))⟩
    intro b _ hab
    exact h (by simp [hab.1])

theorem goodBlock_of_no_nl {l : List Char} (hne : l ≠ []) (h : '\n' ∉ l) :
    GoodBlock l := by
  refine ⟨hne, ?_, ?_, chain'_noNN_of_no_nl h⟩
  · intro hh
    exact h (List.mem_of_mem_head? (by simp [hh]))
  · intro hh
    exact h (List.mem_of_getLast?_eq_some hh)

theorem goodBlock_glue {A B : List Char} (hA : GoodBlock A) (hB : GoodBlock B) :
    GoodBlock (A ++ '\n' :: B) := by
  obtain ⟨hAne, hAh, hAl, hAc⟩ := hA
  obtain ⟨hBne, hBh, hBl, hBc⟩ := hB
  refine ⟨by simp, ?_, ?_, ?_⟩
  · rw [List.head?_append_of_ne_nil A hAne]
    exact hAh
  · rw [List.getLast?_append_of_ne_nil A (by simp : ('\n' :: B) ≠ []),
      getLast?_cons_ne '\n' B hBne]
    exact hBl
  · rw [List.chain'_append]
    refine ⟨hAc, ?_, ?_⟩
    · rw [List.chain'_cons']
      refine ⟨?_, hBc⟩
      intro y hy hcontra
      exact hBh (by rw [← hcontra.2]; exact Option.mem_def.mp hy)
    · intro x hx y hy hcontra
      exact hAl (by rw [← hcontra.1]; exact Option.mem_def.mp hx)

theorem goodBlock_intercalate : ∀ ls : List (List Char), ls ≠ [] →
    (∀ l ∈ ls, l ≠ [] ∧ '\n' ∉ l) → GoodBlock (List.intercalate ['\n'] ls) := by
  intro ls
  induction ls with
  | nil => intro h; exact absurd rfl h
  | cons l rest ih =>
    intro _ hall
    cases rest with
    | nil =>
      rw [show List.intercalate ['\n'] [l] = l by simp [List.intercalate]]
      exact goodBlock_of_no_nl (hall l (by simp)).1 (hall l (by simp)).2
    | cons l2 t =>
      rw [intercalate_cons₂,
        show l ++ ['\n'] ++ List.intercalate ['\n'] (l2 :: t) =
          l ++ '\n' :: List.intercalate ['\n'] (l2 :: t) by simp]
      exact goodBlock_glue
        (goodBlock_of_no_nl (hall l (by simp)).1 (hall l (by simp)).2)
        (ih (by simp) (fun x hx => hall x (by simp [hx])))

theorem goodBlock_text {text : List Char}
    (h : ∀ line ∈ splitLines text, jsTrim line ≠ []) : GoodBlock text := by
  have hlines : ∀ line ∈ splitLines text, line ≠ [] ∧ '\n' ∉ line := by
    intro line hl
    refine ⟨?_, splitLines_lines_no_nl text [] (by simp) line hl⟩
    intro hnil
    subst hnil
    exact h [] hl rfl
  have := goodBlock_intercalate (splitLines text) (splitLinesAux_ne_nil text []) hlines
  rwa [intercalate_splitLines] at this

theorem goodBlock_intToChars (i : ℤ) : GoodBlock (intToChars i) := by
  unfold intToChars
  by_cases hi : i < 0
  · rw [if_pos hi]
    refine goodBlock_of_no_nl (by simp) ?_
    intro hmem
    rcases List.mem_cons.mp hmem with h1 | h1
    · exact absurd h1 (by decide)
    · exact (natToChars_chars _ _ h1).2.2.1 rfl
  · rw [if_neg hi]
    refine goodBlock_of_no_nl (natToChars_ne_nil _) ?_
    intro hmem
    exact (natToChars_chars _ _ hmem).2.2.1 rfl

theorem timing_no_nl (k1 k2 : ℕ) (hk1 : k1 < 360000000) (hk2 : k2 < 360000000) :
    '\n' ∉ secondsToSrtTime ((k1 : ℚ) / 1000) ++ str " --> " ++
      secondsToSrtTime ((k2 : ℚ) / 1000) := by
  intro hmem
  rcases List.mem_append.mp hmem with h1 | h1
  · rcases List.mem_append.mp h1 with h2 | h2
    · exact srtTime_no_nl k1 hk1 h2
    · exact absurd h2 (by decide)
  · exact srtTime_no_nl k2 hk2 h1

theorem goodBlock_timing (k1 k2 : ℕ) (hk1 : k1 < 360000000) (hk2 : k2 < 360000000) :
    GoodBlock (secondsToSrtTime ((k1 : ℚ) / 1000) ++ str " --> " ++
      secondsToSrtTime ((k2 : ℚ) / 1000)) := by
  refine goodBlock_of_no_nl ?_ (timing_no_nl k1 k2 hk1 hk2)
  simp [srtTime_ne_nil k1 hk1]

theorem goodBlock_genBlock (i : ℤ) (sub : Subtitle)
    (k1 k2 : ℕ) (hk1 : k1 < 360000000) (hk2 : k2 < 360000000)
    (hs : sub.startTime = (k1 : ℚ) / 1000) (he : sub.endTime = (k2 : ℚ) / 1000)
    (htext : ∀ line ∈ splitLines sub.text, jsTrim line ≠ []) :
    GoodBlock (genBlock i sub) := by
  unfold genBlock
  rw [List.append_assoc, List.cons_append]
  exact goodBlock_glue (goodBlock_intToChars _)
    (by
      rw [hs, he]
      exact goodBlock_glue (goodBlock_timing k1 k2 hk1 hk2) (goodBlock_text htext))

-- ===== C3 stage G: block parse round trip =====

theorem msMult_exists {q : ℚ} (h : msMult q) (h0 : 0 ≤ q) (hlt : q < 360000) :
    ∃ k : ℕ, k < 360000000 ∧ q = (k : ℚ) / 1000 := by
  unfold msMult at h
  have h1 : (((q * 1000).num : ℤ) : ℚ) = q * 1000 := Rat.coe_int_num_of_den_eq_one h
  have hnum0 : 0 ≤ (q * 1000).num := Rat.num_nonneg.mpr (by positivity)
  refine ⟨(q * 1000).num.toNat, ?_, ?_⟩
  · have hlt2 : q * 1000 < 360000000 := by linarith
    have : (((q * 1000).num : ℤ) : ℚ) < 360000000 := by rw [h1]; exact hlt2
    have hz : (q * 1000).num < 360000000 := by exact_mod_cast this
    omega
  · have hc : (((q * 1000).num.toNat : ℕ) : ℚ) = q * 1000 := by
      rw [← h1]
      norm_cast
      omega
    rw [hc]
    field_simp

theorem intToChars_ne_nil (i : ℤ) : intToChars i ≠ [] := by
  unfold intToChars
  by_cases hi : i < 0
  · rw [if_pos hi]; simp
  · rw [if_neg hi]; exact natToChars_ne_nil _

theorem intToChars_chars (i : ℤ) : ∀ c ∈ intToChars i,
    isJsSpace c = false ∧ c ≠ '\n' ∧ c ≠ '\r' := by
  unfold intToChars
  by_cases hi : i < 0
  · rw [if_pos hi]
    intro c hc
    rcases List.mem_cons.mp hc with h1 | h1
    · subst h1; exact ⟨by decide, by decide, by decide⟩
    · have := natToChars_chars _ _ h1
      exact ⟨this.2.1, this.2.2.1, this.2.2.2.1⟩
  · rw [if_neg hi]
    intro c hc
    have := natToChars_chars _ _ hc
    exact ⟨this.2.1, this.2.2.1, this.2.2.2.1⟩

theorem intToChars_no_nl (i : ℤ) : '\n' ∉ intToChars i := by
  intro hmem
  exact (intToChars_chars i '\n' hmem).2.1 rfl

theorem genBlock_trim_ne (i : ℤ) (sub : Subtitle) : jsTrim (genBlock i sub) ≠ [] := by
  unfold genBlock
  obtain ⟨d, ds, hd⟩ := List.exists_cons_of_ne_nil
    (intToChars_ne_nil (if sub.id = 0 then i else sub.id))
  have hdf := intToChars_chars (if sub.id = 0 then i else sub.id) d (by rw [hd]; simp)
  exact jsTrim_ne_nil_of_mem (by rw [hd]; simp) hdf.1

theorem genBlock_no_cr (i : ℤ) (sub : Subtitle)
    (k1 k2 : ℕ) (hk1 : k1 < 360000000) (hk2 : k2 < 360000000)
    (hs : sub.startTime = (k1 : ℚ) / 1000) (he : sub.endTime = (k2 : ℚ) / 1000)
    (hcr : '\r' ∉ sub.text) : '\r' ∉ genBlock i sub := by
  unfold genBlock
  rw [hs, he]
  intro hmem
  rcases List.mem_append.mp hmem with h1 | h1
  · rcases List.mem_append.mp h1 with h2 | h2
    · exact (intToChars_chars _ '\r' h2).2.2 rfl
    · rcases List.mem_cons.mp h2 with h3 | h3
      · exact absurd h3 (by decide)
      · rcases List.mem_append.mp h3 with h4 | h4
        · rcases List.mem_append.mp h4 with h5 | h5
          · exact srtTime_no_cr k1 hk1 h5
          · exact absurd h5 (by decide)
        · exact srtTime_no_cr k2 hk2 h4
  · rcases List.mem_cons.mp h1 with h3 | h3
    · exact absurd h3 (by decide)
    · exact hcr h3

theorem trimP_true {l : List Char} (h : jsTrim l ≠ []) :
    (!(jsTrim l).isEmpty) = true := by
  rcases heq : jsTrim l with _ | ⟨a, t⟩
  · exact absurd heq h
  · rfl

theorem parseBlock_genBlock (i : ℤ) (sub : Subtitle) (hid : sub.id ≠ 0)
    (k1 k2 : ℕ) (hk1 : k1 < 360000000) (hk2 : k2 < 360000000)
    (hs : sub.startTime = (k1 : ℚ) / 1000) (he : sub.endTime = (k2 : ℚ) / 1000)
    (htext : ∀ line ∈ splitLines sub.text, jsTrim line ≠ []) :
    parseBlock (genBlock i sub) =
      some ⟨sub.id, sub.startTime, sub.endTime, sub.text, none⟩ ∧
    parseBlock (genBlock i sub ++ ['\n']) =
      some ⟨sub.id, sub.startTime, sub.endTime, sub.text, none⟩ := by
  have hgb : genBlock i sub = intToChars sub.id ++ '\n' ::
      ((secondsToSrtTime ((k1 : ℚ) / 1000) ++ str " --> " ++
        secondsToSrtTime ((k2 : ℚ) / 1000)) ++ '\n' :: sub.text) := by
    unfold genBlock
    rw [if_neg hid, hs, he, List.append_assoc, List.cons_append]
  have hsplit : splitLines (genBlock i sub) =
      intToChars sub.id ::
        (secondsToSrtTime ((k1 : ℚ) / 1000) ++ str " --> " ++
          secondsToSrtTime ((k2 : ℚ) / 1000)) :: splitLines sub.text := by
    rw [hgb]
    unfold splitLines
    rw [splitLinesAux_append_nl _ _ _ (intToChars_no_nl sub.id),
      splitLinesAux_append_nl _ _ _ (timing_no_nl k1 k2 hk1 hk2)]
    simp
  have hTtrim : jsTrim (secondsToSrtTime ((k1 : ℚ) / 1000) ++ str " --> " ++
      secondsToSrtTime ((k2 : ℚ) / 1000)) ≠ [] := by
    refine jsTrim_ne_nil_of_mem (c := Nat.digitChar (k1 / 3600000 / 10)) ?_
      (digitChar_facts (by omega)).2.2.1
    apply List.mem_append_left
    apply List.mem_append_left
    rw [secondsToSrtTime_digits k1 hk1]
    simp
  have hfilter : (splitLines (genBlock i sub)).filter (fun l => !(jsTrim l).isEmpty) =
      intToChars sub.id ::
        (secondsToSrtTime ((k1 : ℚ) / 1000) ++ str " --> " ++
          secondsToSrtTime ((k2 : ℚ) / 1000)) :: splitLines sub.text := by
    rw [hsplit,
      List.filter_cons_of_pos (p := fun l => !(jsTrim l).isEmpty)
        (trimP_true (jsTrim_intToChars_ne_nil sub.id)),
      List.filter_cons_of_pos (p := fun l => !(jsTrim l).isEmpty) (trimP_true hTtrim),
      List.filter_eq_self.mpr (fun a ha => trimP_true (htext a ha))]
  obtain ⟨l2, rest2, h22⟩ := List.exists_cons_of_ne_nil
    (show splitLines sub.text ≠ [] from splitLinesAux_ne_nil sub.text [])
  have hint : List.intercalate ['\n'] (l2 :: rest2) = sub.text := by
    rw [← h22]
    exact intercalate_splitLines sub.text
  have hftl : findTimeLine (secondsToSrtTime ((k1 : ℚ) / 1000) ++ str " --> " ++
      secondsToSrtTime ((k2 : ℚ) / 1000)) =
      some ((k1 / 3600000, k1 % 3600000 / 60000, k1 % 60000 / 1000, k1 % 1000),
            (k2 / 3600000, k2 % 3600000 / 60000, k2 % 60000 / 1000, k2 % 1000)) := by
    refine findTimeLine_head ?_ (timeLineAt_gen k1 k2 hk1 hk2)
    simp [srtTime_ne_nil k1 hk1]
  have key : ∀ bl : List Char,
      (splitLines bl).filter (fun l => !(jsTrim l).isEmpty) =
        intToChars sub.id ::
          (secondsToSrtTime ((k1 : ℚ) / 1000) ++ str " --> " ++
            secondsToSrtTime ((k2 : ℚ) / 1000)) :: splitLines sub.text →
      parseBlock bl = some ⟨sub.id, sub.startTime, sub.endTime, sub.text, none⟩ := by
    intro bl hbl
    unfold parseBlock
    rw [hbl, h22]
    dsimp only
    rw [jsParseInt_intToChars sub.id]
    dsimp only
    rw [hftl]
    dsimp only
    rw [timeVal_comp k1, timeVal_comp k2, hint, hs, he]
  refine ⟨key _ hfilter, key _ ?_⟩
  rw [splitLines_append_last_nl, List.filter_append, hfilter]
  simp [jsTrim]

theorem genBlock_nonspace_mem (i : ℤ) (sub : Subtitle) :
    ∃ d ∈ genBlock i sub, isJsSpace d = false := by
  unfold genBlock
  obtain ⟨d, ds, hd⟩ := List.exists_cons_of_ne_nil
    (intToChars_ne_nil (if sub.id = 0 then i else sub.id))
  have hdf := intToChars_chars (if sub.id = 0 then i else sub.id) d (by rw [hd]; simp)
  exact ⟨d, by rw [hd]; simp, hdf.1⟩

theorem parseSRT_genBlocks (subs : List Subtitle) : ∀ i : ℤ,
    (∀ c ∈ subs, c.id ≠ 0 ∧
      (msMult c.startTime ∧ 0 ≤ c.startTime ∧ c.startTime < 360000) ∧
      (msMult c.endTime ∧ 0 ≤ c.endTime ∧ c.endTime < 360000) ∧
      '\r' ∉ c.text ∧ ∀ line ∈ splitLines c.text, jsTrim line ≠ []) →
    ((splitBlocks (List.intercalate (str "\n\n") (genBlocks i subs) ++ ['\n'])).filter
        (fun b => !(jsTrim b).isEmpty)).filterMap parseBlock =
      subs.map (fun c => (⟨c.id, c.startTime, c.endTime, c.text, none⟩ : Subtitle)) := by
  induction subs with
  | nil =>
    intro i _
    simp only [genBlocks, List.map_nil]
    decide
  | cons c rest ih =>
    intro i hall
    have hc := hall c (by simp)
    obtain ⟨k1, hk1, hs⟩ := msMult_exists hc.2.1.1 hc.2.1.2.1 hc.2.1.2.2
    obtain ⟨k2, hk2, he⟩ := msMult_exists hc.2.2.1.1 hc.2.2.1.2.1 hc.2.2.1.2.2
    have hgbB := goodBlock_genBlock i c k1 k2 hk1 hk2 hs he hc.2.2.2.2
    have hpb := parseBlock_genBlock i c hc.1 k1 k2 hk1 hk2 hs he hc.2.2.2.2
    simp only [genBlocks]
    cases rest with
    | nil =>
      simp only [genBlocks]
      unfold splitBlocks
      rw [show List.intercalate (str "\n\n") [genBlock i c] = genBlock i c by
        simp [List.intercalate]]
      rw [sbAux_term _ hgbB.2.2.2 hgbB.2.2.1 []]
      simp only [List.reverse_nil, List.nil_append]
      obtain ⟨d, hdmem, hdsp⟩ := genBlock_nonspace_mem i c
      rw [List.filter_cons_of_pos (p := fun b => !(jsTrim b).isEmpty)
        (trimP_true (jsTrim_ne_nil_of_mem (List.mem_append_left _ hdmem) hdsp)),
        List.filter_nil]
      rw [List.filterMap_cons_some hpb.2, List.filterMap_nil]
      simp
    | cons c2 rest2 =>
      have hc2 := hall c2 (by simp)
      obtain ⟨k1b, hk1b, hsb⟩ := msMult_exists hc2.2.1.1 hc2.2.1.2.1 hc2.2.1.2.2
      obtain ⟨k2b, hk2b, heb⟩ := msMult_exists hc2.2.2.1.1 hc2.2.2.1.2.1 hc2.2.2.1.2.2
      have hgbB2 := goodBlock_genBlock (i + 1) c2 k1b k2b hk1b hk2b hsb heb hc2.2.2.2.2
      unfold splitBlocks
      simp only [genBlocks]
      rw [splitBlocks_step (genBlock i c) (genBlock (i + 1) c2) (genBlocks (i + 1 + 1) rest2)
        [] hgbB.2.2.2 hgbB.2.2.1 hgbB2.2.1 hgbB2.1]
      simp only [List.reverse_nil, List.nil_append]
      rw [List.filter_cons_of_pos (p := fun b => !(jsTrim b).isEmpty)
        (trimP_true (genBlock_trim_ne i c))]
      rw [List.filterMap_cons_some hpb.1]
      rw [List.map_cons]
      congr 1
      have := ih (i + 1) (fun x hx => hall x (by simp [hx]))
      simp only [genBlocks] at this
      exact this

theorem genBlocks_no_cr (subs : List Subtitle) : ∀ i : ℤ,
    (∀ c ∈ subs, c.id ≠ 0 ∧
      (msMult c.startTime ∧ 0 ≤ c.startTime ∧ c.startTime < 360000) ∧
      (msMult c.endTime ∧ 0 ≤ c.endTime ∧ c.endTime < 360000) ∧
      '\r' ∉ c.text ∧ ∀ line ∈ splitLines c.text, jsTrim line ≠ []) →
    ∀ b ∈ genBlocks i subs, '\r' ∉ b := by
  induction subs with
  | nil => intro i _ b hb; simp [genBlocks] at hb
  | cons c rest ih =>
    intro i hall b hb
    simp only [genBlocks, List.mem_cons] at hb
    rcases hb with hb | hb
    · subst hb
      have hc := hall c (by simp)
      obtain ⟨k1, hk1, hs⟩ := msMult_exists hc.2.1.1 hc.2.1.2.1 hc.2.1.2.2
      obtain ⟨k2, hk2, he⟩ := msMult_exists hc.2.2.1.1 hc.2.2.1.2.1 hc.2.2.1.2.2
      exact genBlock_no_cr i c k1 k2 hk1 hk2 hs he hc.2.2.2.1
    · exact ih (i + 1) (fun x hx => hall x (by simp [hx])) b hb

theorem intercalate_no_cr : ∀ bs : List (List Char), (∀ b ∈ bs, '\r' ∉ b) →
    '\r' ∉ List.intercalate (str "\n\n") bs := by
  intro bs
  induction bs with
  | nil => intro _; simp [List.intercalate]
  | cons b rest ih =>
    intro hall
    cases rest with
    | nil =>
      rw [show List.intercalate (str "\n\n") [b] = b by simp [List.intercalate]]
      exact hall b (by simp)
    | cons b2 t =>
      rw [intercalate_cons₂]
      intro hmem
      rcases List.mem_append.mp hmem with h1 | h1
      · rcases List.mem_append.mp h1 with h2 | h2
        · exact hall b (by simp) h2
        · exact absurd h2 (by decide)
      · exact ih (fun x hx => hall x (by simp [hx])) h1

/-- C3 (amended): the comma-millisecond (SRT) round trip holds under the
conditions the code actually requires: every cue has a nonzero id, start
and end times that are whole numbers of milliseconds in [0, 360000)
seconds, and carriage-return-free text none of whose lines is blank;
then `parseSRT (generateSRT subs)` returns exactly the input cues — ids,
times (recovered exactly, not merely within 1 ms) and text — with the
optional `originalText` field dropped. The dot-millisecond (VTT) side of
the original claim fails: the code has no VTT parser, and `parseSRT`
skips every `generateVTT` block as malformed (fewer than three lines),
returning `[]`. -/
theorem parse_generate_round_trip (subs : List Subtitle)
    (h : ∀ c ∈ subs, c.id ≠ 0 ∧
      (msMult c.startTime ∧ 0 ≤ c.startTime ∧ c.startTime < 360000) ∧
      (msMult c.endTime ∧ 0 ≤ c.endTime ∧ c.endTime < 360000) ∧
      '\r' ∉ c.text ∧ ∀ line ∈ splitLines c.text, jsTrim line ≠ []) :
    parseSRT (generateSRT subs) =
      subs.map (fun c => (⟨c.id, c.startTime, c.endTime, c.text, none⟩ : Subtitle)) := by
  have hcr : '\r' ∉ List.intercalate (str "\n\n") (genBlocks 1 subs) ++ ['\n'] := by
    intro hmem
    rcases List.mem_append.mp hmem with h1 | h1
    · exact intercalate_no_cr _ (genBlocks_no_cr subs 1 h) h1
    · exact absurd h1 (by decide)
  unfold parseSRT generateSRT
  rw [normEol_id _ hcr]
  exact parseSRT_genBlocks subs 1 h

theorem parse_generate_round_trip_witness :
    (1 : ℤ) ≠ 0 ∧
    parseSRT (generateSRT [⟨1, 0, 2, str "Zdravo", none⟩]) =
      [⟨1, 0, 2, str "Zdravo", none⟩] := by
  refine ⟨by norm_num, ?_⟩
  have h := parse_generate_round_trip [⟨1, 0, 2, str "Zdravo", none⟩] ?_
  · simpa using h
  · intro c hc
    simp only [List.mem_singleton] at hc
    subst hc
    refine ⟨by norm_num, ⟨?_, by norm_num, by norm_num⟩, ⟨?_, by norm_num, by norm_num⟩,
      by decide, by decide⟩
    · show msMult 0
      norm_num [msMult]
    · show msMult 2
      norm_num [msMult]

/-- C3 counterexample: the claim also asserts the round trip for the
dot-millisecond (VTT) format, but the code's only parser is `parseSRT`,
which skips both blocks of a serialized VTT document (the `WEBVTT`
header block and the index-less cue block each have fewer than three
lines), so parsing the serialized cue list returns `[]` rather than the
cue list. -/
theorem parse_generate_vtt_cex :
    parseSRT (generateVTT [⟨1, 0, 2, str "Zdravo", none⟩]) = [] ∧
    ([] : List Subtitle) ≠ [⟨1, 0, 2, str "Zdravo", none⟩] := by
  constructor
  · unfold generateVTT
    rw [show ([⟨1, 0, 2, str "Zdravo", none⟩] : List Subtitle).map vttBlock =
        [vttBlock ⟨1, 0, 2, str "Zdravo", none⟩] from rfl,
      show List.intercalate (str "\n\n") [vttBlock ⟨1, 0, 2, str "Zdravo", none⟩] =
        vttBlock ⟨1, 0, 2, str "Zdravo", none⟩ by simp [List.intercalate]]
    unfold vttBlock
    dsimp only
    rw [show (0 : ℚ) = ((0 : ℕ) : ℚ) / 1000 by norm_num,
      secondsToSrtTime_digits 0 (by norm_num),
      show (2 : ℚ) = ((2000 : ℕ) : ℚ) / 1000 by norm_num,
      secondsToSrtTime_digits 2000 (by norm_num)]
    decide
  · decide
